import Mathlib

/-!
Verification development for the office-tool dashboard frontend.

This file gives a shallow embedding, in Lean 4, of the business logic of the
two components that carry the arithmetic of the application:

* `ProjectDetail.tsx` — the billing calculator: the "add latest month" live
  preview (`lastValidRow`, `liveStats`) and the in-place ledger row edit
  (`handleCellChange`, `saveRow`);
* `DashboardStats.tsx` — the aggregator: per-category grouping, capacity
  totals, and the monthly generation series (`stats`).

JavaScript numbers are embedded as `Option ℚ` (`JNum`), where `none` plays the
role of `NaN`; every arithmetic operation propagates `none`.  No code path of
the embedded fragment can produce `Infinity`, so it is not modelled.  Cell
values arriving from the JSON backend are embedded as strings or `undefined`
(`Val`): every consumer in the source immediately coerces cells through
`String(...)` or `Number(...)`, so a numeric JSON cell behaves exactly like its
decimal string form in every embedded operation.

The Batteries `Rat` arithmetic operations are `@[irreducible]`, which blocks
kernel evaluation (`decide`) on concrete inputs.  The embedding therefore uses
its own reducible wrappers `qadd`, `qsub`, `qmul`, `qdiv`, `qneg` built on
`mkRat`; the lemmas `qadd_eq` … `qdiv_eq` identify them with the Mathlib
operations for use in general proofs.
-/

namespace OfficeTool

/-! ## Reducible rational arithmetic -/

/-- Reducible addition on `ℚ` (identical to `+`, see `qadd_eq`). -/
def qadd (a b : ℚ) : ℚ := mkRat (a.num * b.den + b.num * a.den) (a.den * b.den)

/-- Reducible subtraction on `ℚ` (identical to `-`, see `qsub_eq`). -/
def qsub (a b : ℚ) : ℚ := mkRat (a.num * b.den - b.num * a.den) (a.den * b.den)

/-- Reducible multiplication on `ℚ` (identical to `*`, see `qmul_eq`). -/
def qmul (a b : ℚ) : ℚ := mkRat (a.num * b.num) (a.den * b.den)

/-- Reducible negation on `ℚ` (identical to `-·`, see `qneg_eq`). -/
def qneg (a : ℚ) : ℚ := mkRat (-a.num) a.den

/-- Reducible division on `ℚ` (identical to `/`, see `qdiv_eq`). -/
def qdiv (a b : ℚ) : ℚ := Rat.divInt (a.num * (b.den : ℤ)) (b.num * (a.den : ℤ))

/-- Embedding of JavaScript `Math.round` on a finite number: round half toward
positive infinity, i.e. `⌊q + 1/2⌋` (see `jsRound_eq`). -/
def jsRound (q : ℚ) : ℤ := (2 * q.num + (q.den : ℤ)).fdiv (2 * (q.den : ℤ))

/-! ## Character and string utilities

JavaScript string operations used by the source (`toUpperCase`, `toLowerCase`,
`includes`, `trim`, `replace` with a string pattern, `replace(/,/g,'')`,
`substring`) are embedded on `List Char`.  The headers and cell contents of
this application are ASCII, where `Char.toUpper`/`Char.toLower` agree with the
JavaScript case mappings. -/

/-- `leadsWith pat l` holds when `pat` occurs at the head of `l`. -/
def leadsWith : List Char → List Char → Bool
  | [], _ => true
  | _ :: _, [] => false
  | a :: as, b :: bs => a == b && leadsWith as bs

/-- `hasSub pat l`: `pat` occurs contiguously somewhere in `l` — the embedding
of JavaScript `String.prototype.includes`. -/
def hasSub (pat : List Char) : List Char → Bool
  | [] => pat.isEmpty
  | c :: t => leadsWith pat (c :: t) || hasSub pat t

/-- String wrapper for `hasSub`: `s.includes pat`. -/
def hasSubStr (s pat : String) : Bool := hasSub pat.data s.data

/-- Embedding of `String.prototype.toUpperCase` (ASCII). -/
def upStr (s : String) : String := String.mk (s.data.map Char.toUpper)

/-- Embedding of `String.prototype.toLowerCase` (ASCII). -/
def lcStr (s : String) : String := String.mk (s.data.map Char.toLower)

/-- Case-insensitive containment as the source writes it:
`s.toLowerCase().includes(pat)` with `pat` already lowercase. -/
def lcHas (s pat : String) : Bool := hasSubStr (lcStr s) pat

/-- Embedding of `value.replace(/,/g, '')`: delete every comma. -/
def stripCommas (s : String) : String := String.mk (s.data.filter (fun c => c ≠ ','))

/-- Remove a trailing run of whitespace. -/
def trimEndWS : List Char → List Char
  | [] => []
  | c :: t =>
    match trimEndWS t with
    | [] => if c.isWhitespace then [] else [c]
    | r => c :: r

/-- Embedding of `String.prototype.trim`: drop leading and trailing whitespace. -/
def trimChars (l : List Char) : List Char := trimEndWS (l.dropWhile Char.isWhitespace)

/-- String wrapper for `trimChars`. -/
def trimStr (s : String) : String := String.mk (trimChars s.data)

/-- Replace the first occurrence of `pat` in `l` by nothing — the embedding of
JavaScript `String.prototype.replace(pat, "")` with a string pattern, which
replaces only the first occurrence. -/
def replaceOnce (pat : List Char) : List Char → List Char
  | [] => []
  | c :: t => if leadsWith pat (c :: t) then (c :: t).drop pat.length else c :: replaceOnce pat t

/-- String wrapper for `replaceOnce`. -/
def strReplaceOnce (s pat : String) : String := String.mk (replaceOnce pat.data s.data)

/-- First three characters — the embedding of `name.substring(0, 3)`. -/
def take3 (s : String) : String := String.mk (s.data.take 3)

/-! ## Digits, decimal parsing and rendering -/

/-- Decimal digit test (`[0-9]`). -/
def isDig (c : Char) : Bool := '0' ≤ c && c ≤ '9'

/-- ASCII letter test (`[A-Za-z]`). -/
def isAlpha (c : Char) : Bool := ('A' ≤ c && c ≤ 'Z') || ('a' ≤ c && c ≤ 'z')

/-- Numeric value of a digit character. -/
def digVal (c : Char) : ℕ := c.toNat - 48

/-- Digit character for a value below ten. -/
def digChar (d : ℕ) : Char :=
  match d with
  | 0 => '0' | 1 => '1' | 2 => '2' | 3 => '3' | 4 => '4'
  | 5 => '5' | 6 => '6' | 7 => '7' | 8 => '8' | _ => '9'

/-- Split off the maximal leading run of digits. -/
def takeDigs : List Char → List Char × List Char
  | [] => ([], [])
  | c :: t => if isDig c then
      let p := takeDigs t
      (c :: p.1, p.2)
    else ([], c :: t)

/-- Split off the maximal leading run of ASCII letters. -/
def takeAlpha : List Char → List Char × List Char
  | [] => ([], [])
  | c :: t => if isAlpha c then
      let p := takeAlpha t
      (c :: p.1, p.2)
    else ([], c :: t)

/-- Value of a digit run, most significant first. -/
def digsVal (l : List Char) : ℕ := l.foldl (fun a c => 10 * a + digVal c) 0

/-- Power of ten with an integer exponent, as a rational. -/
def pow10 (e : ℤ) : ℚ := if 0 ≤ e then ((10 ^ e.toNat : ℕ) : ℚ) else mkRat 1 (10 ^ (-e).toNat)

/-- Parse an optional exponent part `e`/`E` `[+-]? digits` at the head of `cs`;
if the digits are missing the exponent is not consumed.  Returns the exponent
value and the remainder. -/
def parseExp (cs : List Char) : ℤ × List Char :=
  match cs with
  | [] => (0, [])
  | c :: t =>
    if c == 'e' || c == 'E' then
      match t with
      | '+' :: t2 =>
        let p := takeDigs t2
        if p.1.isEmpty then (0, cs) else ((digsVal p.1 : ℤ), p.2)
      | '-' :: t2 =>
        let p := takeDigs t2
        if p.1.isEmpty then (0, cs) else (-(digsVal p.1 : ℤ), p.2)
      | _ =>
        let p := takeDigs t
        if p.1.isEmpty then (0, cs) else ((digsVal p.1 : ℤ), p.2)
    else (0, cs)

/-- Parse an optional fraction part `. digits` at the head of `cs`; without a
leading dot nothing is consumed. -/
def parseFrac (cs : List Char) : List Char × List Char :=
  match cs with
  | '.' :: t => takeDigs t
  | r => ([], r)

/-- Parse an unsigned decimal literal `digits [. digits] [exp]` at the head of
`cs` (at least one digit before or after the dot).  Returns the value and the
remainder, or `none` when no digit is found. -/
def parseDecCore (cs : List Char) : Option (ℚ × List Char) :=
  let p1 := takeDigs cs
  let p2 := parseFrac p1.2
  if p1.1.isEmpty && p2.1.isEmpty then none
  else
    let mant : ℚ := mkRat ((digsVal p1.1 * 10 ^ p2.1.length + digsVal p2.1 : ℕ) : ℤ) (10 ^ p2.1.length)
    let e := parseExp p2.2
    some (qmul mant (pow10 e.1), e.2)

/-- Parse a signed decimal literal at the head of `cs`. -/
def parseSigned (cs : List Char) : Option (ℚ × List Char) :=
  match cs with
  | [] => parseDecCore []
  | c :: t =>
    if c = '+' then parseDecCore t
    else if c = '-' then
      match parseDecCore t with
      | some p => some (qneg p.1, p.2)
      | none => none
    else parseDecCore (c :: t)

/-- Embedding of JavaScript `parseFloat`: skip leading whitespace, then parse
the longest signed decimal-literal prefix; `none` (NaN) when there is none.
(The `Infinity` and hexadecimal forms are not modelled: no input of this
program produces them.) -/
def parseFloat (s : String) : Option ℚ :=
  match parseSigned (s.data.dropWhile Char.isWhitespace) with
  | some p => some p.1
  | none => none

/-- Embedding of JavaScript `Number(...)` applied to a string: after trimming
whitespace, the empty string is `0` and otherwise the whole string must be a
signed decimal literal, else NaN (`none`). -/
def jsNumber (s : String) : Option ℚ :=
  let cs := trimChars s.data
  if cs.isEmpty then some 0
  else
    match parseSigned cs with
    | some (q, []) => some q
    | _ => none

/-- Decimal digit characters, fuel-based structural recursion so that the
kernel can evaluate it (`natChars` always supplies enough fuel). -/
def natCharsF : ℕ → ℕ → List Char → List Char
  | 0, _, acc => acc
  | f + 1, n, acc =>
    if n < 10 then digChar n :: acc
    else natCharsF f (n / 10) (digChar (n % 10) :: acc)

/-- Decimal digit characters of `n`, most significant first. -/
def natChars (n : ℕ) : List Char := natCharsF (n + 1) n []

/-- Two-digit zero-padded rendering of `r < 100`. -/
def pad2 (r : ℕ) : List Char := if r < 10 then ['0', digChar r] else natChars r

/-- The integer `⌊|q| * 100 + 1/2⌋` used by `toFixed(2)`, computed reducibly. -/
def fixed2Nat (q : ℚ) : ℕ := (200 * q.num.natAbs + q.den) / (2 * q.den)

/-- Embedding of JavaScript `x.toFixed(2)` on a finite number: sign of `x`,
then `|x|` rounded to the closest two-decimal string (ties toward the larger
magnitude, per the ECMAScript `toFixed` specification). -/
def fixed2 (q : ℚ) : String :=
  let m := fixed2Nat q
  String.mk ((if q.num < 0 then ['-'] else []) ++ natChars (m / 100) ++ '.' :: pad2 (m % 100))

/-- The rational value denoted by the string `fixed2 q`. -/
def fixed2Val (q : ℚ) : ℚ :=
  if q.num < 0 then qneg (mkRat (fixed2Nat q) 100) else mkRat (fixed2Nat q) 100

/-- Embedding of `i.toString()` for an integer-valued JavaScript number. -/
def intStr (i : ℤ) : String := String.mk ((if i < 0 then ['-'] else []) ++ natChars i.natAbs)

/-! ## JavaScript numbers with NaN, and JSON cell values -/

/-- A JavaScript number: `none` is NaN. -/
abbrev JNum := Option ℚ

/-- NaN-propagating addition. -/
def jadd : JNum → JNum → JNum
  | some a, some b => some (qadd a b)
  | _, _ => none

/-- NaN-propagating subtraction. -/
def jsub : JNum → JNum → JNum
  | some a, some b => some (qsub a b)
  | _, _ => none

/-- NaN-propagating multiplication. -/
def jmul : JNum → JNum → JNum
  | some a, some b => some (qmul a b)
  | _, _ => none

/-- Embedding of `x || 0` on a number: NaN (and 0 itself) becomes 0. -/
def nanToZero : JNum → ℚ
  | some q => q
  | none => 0

/-- Embedding of `Math.round(x)` on a possibly-NaN number. -/
def jround : JNum → JNum
  | some q => some ((jsRound q : ℤ) : ℚ)
  | none => none

/-- Embedding of `x.toFixed(2)` on a possibly-NaN number (`NaN.toFixed(2)` is
the string `"NaN"`). -/
def jfixed2 : JNum → String
  | some q => fixed2 q
  | none => "NaN"

/-- Embedding of `Math.round(x).toString()` on a possibly-NaN number. -/
def jroundStr : JNum → String
  | some q => intStr (jsRound q)
  | none => "NaN"

/-- A cell value of a record or ledger row as delivered by the JSON backend:
a string, or absent (`undefined`).  Numeric JSON cells are embedded by their
decimal string form: every use in the source first coerces the cell through
`String(...)` or `Number(...)`, where the number and its string behave
identically (`null` likewise behaves as `undef` in every used operation). -/
inductive Val where
  | undef : Val
  | str : String → Val
deriving DecidableEq

/-- A record / ledger row: an insertion-ordered string-keyed object. -/
abbrev Row := List (String × Val)

/-- Embedding of `row[key]` (missing keys give `undefined`). -/
def rowGet : Row → String → Val
  | [], _ => .undef
  | (k, v) :: t, key => if k = key then v else rowGet t key

/-- Embedding of `row[key] = v` / `{...row, [key]: v}`: existing keys are
updated in place (insertion order kept), new keys are appended. -/
def rowSet : Row → String → Val → Row
  | [], key, v => [(key, v)]
  | (k, w) :: t, key, v => if k = key then (k, v) :: t else (k, w) :: rowSet t key v

/-- Embedding of `String(v)`. -/
def valStr : Val → String
  | .undef => "undefined"
  | .str s => s

/-- Embedding of `String(v || d)` for a string default `d`: `undefined` and the
empty string (both falsy) fall back to `d`. -/
def orDefault (v : Val) (d : String) : String :=
  match v with
  | .undef => d
  | .str s => if s = "" then d else s

/-- Embedding of `Number(v || 0)`: a falsy cell (missing or empty) gives `0`,
otherwise the string is converted with `Number(...)`. -/
def numCell (v : Val) : JNum :=
  match v with
  | .undef => some 0
  | .str s => if s = "" then some 0 else jsNumber s

/-! ## ProjectDetail.tsx — billing calculator -/

/-- Validity test of the backward scan in `lastValidRow` (ProjectDetail.tsx
lines 66–77): the meter-factor cell — the cell of the second header,
`headers[1]` — comma-stripped, must parse to a strictly positive number.
A falsy header (`if (!mfKey) continue`) never matches. -/
def mfValid (headers : List String) (r : Row) : Bool :=
  match headers.get? 1 with
  | none => false
  | some k =>
    if k = "" then false
    else
      match parseFloat (stripCommas (orDefault (rowGet r k) "")) with
      | none => false
      | some q => decide (0 < q)

/-- Backward scan of `lastValidRow`: the last row of the list satisfying
`mfValid` (later rows take precedence). -/
def lastValidRowAux (headers : List String) : List Row → Option Row
  | [] => none
  | r :: t =>
    match lastValidRowAux headers t with
    | some x => some x
    | none => if mfValid headers r then some r else none

/-- Embedding of the `lastValidRow` memo (ProjectDetail.tsx lines 63–79):
`null` when the ledger is empty or there are fewer than two headers, else the
most recent row whose meter-factor cell is a positive number. -/
def lastValidRow (history : List Row) (headers : List String) : Option Row :=
  if history.isEmpty || headers.length < 2 then none
  else lastValidRowAux headers history

/-- Embedding of `liveStats.getVal` (ProjectDetail.tsx lines 86–90): read the
cell of header `idx` of the base row, defaulting a falsy cell to `"0"`,
strip commas, and `parseFloat` — with no NaN fallback. -/
def getVal (headers : List String) (r : Row) (idx : ℕ) : JNum :=
  match headers.get? idx with
  | none => some 0
  | some k =>
    if k = "" then some 0
    else parseFloat (stripCommas (orDefault (rowGet r k) "0"))

/-- Result record of the `liveStats` memo. -/
structure LiveStats where
  mf : JNum
  prevExport : JNum
  prevImport : JNum
  rate : JNum
  diffExport : JNum
  kwhExport : JNum
  diffImport : JNum
  kwhImport : JNum
  netExport : JNum
  bill : JNum
deriving DecidableEq

/-- Embedding of the `liveStats` memo (ProjectDetail.tsx lines 81–111): `null`
unless a base row exists and there are at least 12 headers; previous values
come from headers 1 (MF), 3 (previous export), 7 (previous import) and
11 (rate); the current readings come from the form fields
(`parseFloat(...) || 0`). -/
def liveStats (history : List Row) (headers : List String) (curExp curImp : String) :
    Option LiveStats :=
  match lastValidRow history headers with
  | none => none
  | some r =>
    if headers.length < 12 then none
    else
      let mf := getVal headers r 1
      let prevExport := getVal headers r 3
      let prevImport := getVal headers r 7
      let rate := getVal headers r 11
      let currExport : ℚ := nanToZero (parseFloat curExp)
      let currImport : ℚ := nanToZero (parseFloat curImp)
      let diffExport := jsub (some currExport) prevExport
      let kwhExport := jmul diffExport mf
      let diffImport := jsub (some currImport) prevImport
      let kwhImport := jmul diffImport mf
      let netExport := jsub kwhExport kwhImport
      let bill := jmul netExport rate
      some ⟨mf, prevExport, prevImport, rate, diffExport, kwhExport,
            diffImport, kwhImport, netExport, bill⟩

/-- Embedding of the preview area's ternary (ProjectDetail.tsx lines 341/365):
the "Could not find previous data row to base calculations on." message is
rendered exactly when `liveStats` is `null`. -/
def previewFallbackShown (ls : Option LiveStats) : Bool := ls.isNone

/-- Embedding of `findKey` (ProjectDetail.tsx line 120): the first header whose
upper-cased form contains `sub`. -/
def findKey (headers : List String) (sub : String) : Option String :=
  headers.find? (fun h => hasSubStr (upStr h) sub)

/-- JavaScript truthiness of an optional key (`undefined` and `""` are falsy). -/
def keyTruthy : Option String → Bool
  | some s => !(s == "")
  | none => false

/-- Embedding of the `val` helper of `handleCellChange` (ProjectDetail.tsx
lines 138–141): a falsy key gives 0, otherwise the cell (defaulted to `"0"`)
is comma-stripped and parsed, with NaN coerced to 0 by `|| 0`. -/
def cellNum (row : Row) (k : Option String) : ℚ :=
  match k with
  | none => 0
  | some key =>
    if key = "" then 0
    else nanToZero (parseFloat (stripCommas (orDefault (rowGet row key) "0")))

/-- Write helper: the source only ever writes through a key it has checked to
be truthy; a `none` key writes nothing. -/
def rowSetOpt (r : Row) (k : Option String) (v : Val) : Row :=
  match k with
  | some key => rowSet r key v
  | none => r

/-- Read helper for an optional key. -/
def rowGetOpt (r : Row) (k : Option String) : Val :=
  match k with
  | none => .undef
  | some key => rowGet r key

/-- The component state touched by `handleCellChange`. -/
structure EditState where
  history : List Row
  modified : Finset ℕ
deriving DecidableEq

/-- Embedding of `handleCellChange` (ProjectDetail.tsx lines 115–181).  The
edited cell is written first; if the MF and rate keys resolve and the edited
header is one of the recalculation triggers, the export side, import side and
net/bill derived cells are recomputed in source order, each guarded by its
keys resolving; the row is stored back and marked modified. -/
def handleCellChange (st : EditState) (headers : List String) (rowIndex : ℕ)
    (header : String) (value : String) : EditState :=
  let row1 := rowSet (st.history.getD rowIndex []) header (.str value)
  let kMF := findKey headers "MF"
  let kRate := match findKey headers "RATE" with
    | some k => some k
    | none => findKey headers "TARIFF"
  let kExpCurr := findKey headers "EXPORT - CURRENT"
  let kExpPrev := findKey headers "EXPORT - PREVIOUS"
  let kExpDiff := findKey headers "EXPORT - DIFFERENCE"
  let kExpKWH := findKey headers "EXPORT - KWH"
  let kImpCurr := findKey headers "IMPORT - CURRENT"
  let kImpPrev := findKey headers "IMPORT - PREVIOUS"
  let kImpKWH := findKey headers "IMPORT - KWH"
  let kNet := findKey headers "NET"
  let kBill := findKey headers "BILL AMOUNT"
  let doCalc := keyTruthy kMF && keyTruthy kRate &&
    (some header == kExpCurr || some header == kImpCurr ||
     some header == kMF || some header == kRate)
  let row2 :=
    if doCalc then
      let mf := cellNum row1 kMF
      let rate := cellNum row1 kRate
      let rowA :=
        if keyTruthy kExpCurr && keyTruthy kExpPrev &&
           keyTruthy kExpDiff && keyTruthy kExpKWH then
          let diff := qsub (cellNum row1 kExpCurr) (cellNum row1 kExpPrev)
          let r := rowSetOpt row1 kExpDiff (.str (fixed2 diff))
          rowSetOpt r kExpKWH (.str (fixed2 (qmul diff mf)))
        else row1
      let rowB :=
        if keyTruthy kImpCurr && keyTruthy kImpPrev && keyTruthy kImpKWH then
          let diff := qsub (cellNum rowA kImpCurr) (cellNum rowA kImpPrev)
          let kImpDiff := findKey headers "IMPORT - DIFFERENCE"
          let r := rowSetOpt rowA kImpDiff (.str (fixed2 diff))
          rowSetOpt r kImpKWH (.str (fixed2 (qmul diff mf)))
        else rowA
      if keyTruthy kExpKWH && keyTruthy kImpKWH && keyTruthy kNet && keyTruthy kBill then
        let expUnits := parseFloat (stripCommas (valStr (rowGetOpt rowB kExpKWH)))
        let impUnits := parseFloat (stripCommas (valStr (rowGetOpt rowB kImpKWH)))
        let net := jsub expUnits impUnits
        let r := rowSetOpt rowB kNet (.str (jfixed2 net))
        rowSetOpt r kBill (.str (jroundStr (jmul net (some rate))))
      else rowB
    else row1
  { history := st.history.set rowIndex row2,
    modified := insert rowIndex st.modified }

/-- The effect of `saveRow` (ProjectDetail.tsx lines 183–206) on the
modified-row set: the network call is abstracted by `success`; the row index is
removed from the set only in the success continuation, the catch branch leaves
the set unchanged. -/
def saveRowModified (modified : Finset ℕ) (rowIndex : ℕ) (success : Bool) : Finset ℕ :=
  if success then modified.erase rowIndex else modified

/-! ## DashboardStats.tsx — aggregator -/

/-- One category group (`typeGroups[groupKey]`, DashboardStats.tsx lines 57–69). -/
structure Group where
  name : String
  count : ℕ
  installed : JNum
  contracted : JNum
deriving DecidableEq

/-- One monthly series point (`lineData` entry, DashboardStats.tsx lines 94–98). -/
structure LinePoint where
  name : String
  val : JNum
deriving DecidableEq

/-- The aggregation result (`stats`, DashboardStats.tsx lines 105–111). -/
structure Stats where
  totalCapacity : JNum
  totalCount : ℕ
  totalGen : ℚ
  groups : List Group
  lineData : List LinePoint
deriving DecidableEq

/-- Embedding of `a || b` on strings (the resolvers return `""` for "missing"). -/
def strFallback (a b : String) : String := if a = "" then b else a

/-- An optional column, defaulted as JavaScript `find(...) || ""` would. -/
def optStr (o : Option String) : String := o.getD ""

/-- Resolution of the plant-type column (DashboardStats.tsx line 36):
`cols.find(c => c.toLowerCase().includes("plant type")) || cols[0] || ""`. -/
def typeColOf (cols : List String) : String :=
  strFallback (optStr (cols.find? (fun c => lcHas c "plant type"))) (optStr cols.head?)

/-- Resolution of the state column (line 37):
`cols.find(c => lc.includes("within") || lc.includes("state")) || ""`. -/
def stateColOf (cols : List String) : String :=
  optStr (cols.find? (fun c => lcHas c "within" || lcHas c "state"))

/-- Resolution of the installed-capacity column (lines 38–40). -/
def capColOf (cols : List String) : String :=
  strFallback (optStr (cols.find? (fun c => lcHas c "installed" && lcHas c "capacity")))
    (optStr (cols.find? (fun c => lcHas c "capacity" || lcHas c "mw")))

/-- Resolution of the contracted-capacity column (line 41). -/
def contractedColOf (cols : List String) : String :=
  optStr (cols.find? (fun c => lcHas c "contracted" && lcHas c "capacity"))

/-- The generation columns (line 42): all columns containing `"net unit"`. -/
def genColsOf (cols : List String) : List String :=
  cols.filter (fun c => lcHas c "net unit")

/-- Embedding of `Number(p[col] || 0)`. -/
def cellOf (p : Row) (col : String) : JNum := numCell (rowGet p col)

/-- Embedding of `String(p[typeCol] || "Other").trim()` (line 50). -/
def rawTypeOf (cols : List String) (p : Row) : String :=
  trimStr (orDefault (rowGet p (typeColOf cols)) "Other")

/-- Embedding of `isPunjab` (line 51):
`stateCol && String(p[stateCol]).toLowerCase().includes("within")`. -/
def isPunjabOf (cols : List String) (p : Row) : Bool :=
  !(stateColOf cols == "") && lcHas (valStr (rowGet p (stateColOf cols))) "within"

/-- Embedding of the group-key derivation (lines 53–55): strip the first
occurrence of `" Power Plant"` then of `" Project"`, then special-case any
label containing `"solar"` into the Punjab / Outside buckets. -/
def groupKeyOf (cols : List String) (p : Row) : String :=
  let k0 := strReplaceOnce (strReplaceOnce (rawTypeOf cols p) " Power Plant") " Project"
  let k1 := if isPunjabOf cols p && lcHas k0 "solar" then "Solar (Punjab)" else k0
  if !(isPunjabOf cols p) && lcHas k1 "solar" then "Solar (Outside)" else k1

/-- Embedding of the `^([A-Za-z]+-\d{2})` match (line 73): a maximal nonempty
run of letters, a hyphen, and two digits, all at the start of the string;
the captured label is exactly those characters. -/
def monthLabel? (s : String) : Option String :=
  let p := takeAlpha s.data
  if p.1.isEmpty then none
  else
    match p.2 with
    | '-' :: d1 :: d2 :: _ =>
      if isDig d1 && isDig d2 then some (String.mk (p.1 ++ '-' :: d1 :: [d2])) else none
    | _ => none

/-- Accumulator of the `projects.forEach` fold (lines 29–32). -/
structure AggSt where
  totalCapacity : JNum
  totalGen : ℚ
  typeGroups : List (String × Group)
  monthly : List (String × ℚ)
deriving DecidableEq

/-- Embedding of the group upsert (lines 57–69): create the group on first
sight (count 0, sums 0) and accumulate count, installed and contracted.
JavaScript objects keep string keys in insertion order. -/
def bumpGroup (key : String) (cap con : JNum) : List (String × Group) → List (String × Group)
  | [] => [(key, { name := key, count := 1,
                   installed := jadd (some 0) cap, contracted := jadd (some 0) con })]
  | (k, g) :: t =>
    if k = key then
      (k, { name := g.name, count := g.count + 1,
            installed := jadd g.installed cap, contracted := jadd g.contracted con }) :: t
    else (k, g) :: bumpGroup key cap con t

/-- Embedding of `monthlyGroups[m] = (monthlyGroups[m] || 0) + val` (line 78). -/
def bumpMonth (label : String) (v : ℚ) : List (String × ℚ) → List (String × ℚ)
  | [] => [(label, v)]
  | (k, x) :: t => if k = label then (k, qadd x v) :: t else (k, x) :: bumpMonth label v t

/-- Lookup in a string-keyed accumulator list, defaulting to 0 — used by the
claim theorems to read one month bucket out of the fold state. -/
def assocVal : List (String × ℚ) → String → ℚ
  | [], _ => 0
  | (k, v) :: t, key => if k = key then v else assocVal t key

/-- Embedding of the per-generation-column step (lines 72–82): only a column
whose name matches the month pattern, with a strictly positive numeric value,
contributes to its month bucket and to the generation total. -/
def stepGenCol (p : Row) (st : AggSt) (g : String) : AggSt :=
  match monthLabel? g with
  | none => st
  | some m =>
    match cellOf p g with
    | none => st
    | some v =>
      if 0 < v then
        { st with monthly := bumpMonth m v st.monthly, totalGen := qadd st.totalGen v }
      else st

/-- Embedding of the per-record step of the fold (lines 45–83). -/
def stepRecord (cols : List String) (st : AggSt) (p : Row) : AggSt :=
  let capVal := cellOf p (capColOf cols)
  let conVal := cellOf p (contractedColOf cols)
  let st1 : AggSt :=
    { st with totalCapacity := jadd st.totalCapacity conVal,
              typeGroups := bumpGroup (groupKeyOf cols p) capVal conVal st.typeGroups }
  (genColsOf cols).foldl (stepGenCol p) st1

/-- Stable insertion into a sorted list (`le a b` means "a compares no later
than b", i.e. the JavaScript comparator returns a non-positive value). -/
def insertSorted (le : α → α → Bool) (a : α) : List α → List α
  | [] => [a]
  | b :: t => if le a b then a :: b :: t else b :: insertSorted le a t

/-- Stable sort — the embedding of `Array.prototype.sort`, which ECMAScript
requires to be stable; for the consistent comparators arising here the stable
sorted order is unique, so any stable algorithm is a faithful model. -/
def stableSort (le : α → α → Bool) : List α → List α
  | [] => []
  | a :: t => insertSorted le a (stableSort le t)

/-- The groups comparator (lines 86–90) as a "compares no later" relation:
the comparator returns `-1` when `a` is "Solar (Punjab)", `1` when `b` is,
and `b.installed - a.installed` otherwise; `le a b` holds when that value is
not positive (a NaN comparator value is treated as equal by the sort). -/
def groupLe (a b : Group) : Bool :=
  if a.name = "Solar (Punjab)" then true
  else if b.name = "Solar (Punjab)" then false
  else
    match a.installed, b.installed with
    | some x, some y => decide (y ≤ x)
    | _, _ => true

/-- The fiscal month ordering (line 93). -/
def fiscalMonths : List String :=
  ["Apr", "May", "Jun", "Jul", "Aug", "Sep", "Oct", "Nov", "Dec", "Jan", "Feb", "Mar"]

/-- Embedding of `Array.prototype.indexOf` (missing gives `-1`). -/
def jsIndexOf : List String → String → ℤ
  | [], _ => -1
  | a :: t, s =>
    if a = s then 0
    else
      let r := jsIndexOf t s
      if r = -1 then -1 else r + 1

/-- Sort key of a monthly entry (lines 99–102): position of the first three
characters of its label in the fiscal month list. -/
def fiscalIdx (name : String) : ℤ := jsIndexOf fiscalMonths (take3 name)

/-- The monthly-series comparator as a "compares no later" relation. -/
def lineLe (a b : LinePoint) : Bool := decide (fiscalIdx a.name ≤ fiscalIdx b.name)

/-- Embedding of `Number((value / 1000000).toFixed(2))` (line 97). -/
def muVal (v : ℚ) : JNum := jsNumber (fixed2 (qdiv v 1000000))

/-- Embedding of the `stats` memo of DashboardStats.tsx (lines 17–112). -/
def aggregate (projects : List Row) : Stats :=
  if projects.isEmpty then
    { totalCapacity := some 0, totalCount := 0, totalGen := 0, groups := [], lineData := [] }
  else
    let cols := (projects.headD []).map Prod.fst
    let st := projects.foldl (stepRecord cols)
      { totalCapacity := some 0, totalGen := 0, typeGroups := [], monthly := [] }
    { totalCapacity := jround st.totalCapacity,
      totalCount := projects.length,
      totalGen := st.totalGen,
      groups := stableSort groupLe (st.typeGroups.map Prod.snd),
      lineData := stableSort lineLe (st.monthly.map (fun e => ⟨e.1, muVal e.2⟩)) }

/-! ## Specification-side summations

The claim theorems compare the fold above against direct sums, written from
the spec's reading of the algorithm. -/

/-- The positive numeric part of a cell: what a cell contributes if the source
only adds strictly positive numeric values. -/
def posPart (x : JNum) : ℚ :=
  match x with
  | some q => if 0 < q then q else 0
  | none => 0

/-- Direct contracted-capacity accumulation over the records, exactly the
`totalCapacity += Number(p[contractedCol] || 0)` chain (NaN propagates). -/
def contractedSum (projects : List Row) : JNum :=
  let cols := (projects.headD []).map Prod.fst
  projects.foldl (fun acc p => jadd acc (cellOf p (contractedColOf cols))) (some 0)

/-- Direct sum of the positive generation values of record `p` under month
label `m`: only generation columns whose name matches the month pattern with
label `m` contribute. -/
def monthContrib (p : Row) (m : String) (gcols : List String) : ℚ :=
  (gcols.map (fun g => if monthLabel? g = some m then posPart (cellOf p g) else 0)).sum

/-- Direct double sum of `monthContrib` over all records. -/
def monthRaw (projects : List Row) (m : String) : ℚ :=
  (projects.map (fun p => monthContrib p m (genColsOf ((projects.headD []).map Prod.fst)))).sum

/-- Direct sum of the positive generation values of record `p` over all
pattern-matching generation columns. -/
def genContrib (p : Row) (gcols : List String) : ℚ :=
  (gcols.map (fun g => match monthLabel? g with
    | some _ => posPart (cellOf p g)
    | none => 0)).sum

/-- Direct double sum of `genContrib` over all records. -/
def genRawTotal (projects : List Row) : ℚ :=
  (projects.map (fun p => genContrib p (genColsOf ((projects.headD []).map Prod.fst)))).sum


/-! ## Concrete demonstration data -/

/-- A ledger header list of the shape the backend serves: 13 columns, with the
meter factor at index 1, previous export at index 3, previous import at
index 7 and the rate at index 11. -/
def demoHeaders : List String :=
  ["MONTH", "MF", "EXPORT - CURRENT", "EXPORT - PREVIOUS", "EXPORT - DIFFERENCE",
   "EXPORT - KWH", "IMPORT - CURRENT", "IMPORT - PREVIOUS", "IMPORT - DIFFERENCE",
   "IMPORT - KWH", "NET UNITS", "RATE", "BILL AMOUNT"]

/-- A ledger row with meter factor 1000, previous export 100, previous import
10 and rate 5 — the configuration of the spec's worked example. -/
def demoLedgerRow : Row :=
  [("MONTH", .str "Jan-25"), ("MF", .str "1000"), ("EXPORT - CURRENT", .str "100"),
   ("EXPORT - PREVIOUS", .str "100"), ("EXPORT - DIFFERENCE", .str "0"),
   ("EXPORT - KWH", .str "0"), ("IMPORT - CURRENT", .str "10"),
   ("IMPORT - PREVIOUS", .str "10"), ("IMPORT - DIFFERENCE", .str "0"),
   ("IMPORT - KWH", .str "0"), ("NET UNITS", .str "0"), ("RATE", .str "5"),
   ("BILL AMOUNT", .str "0")]

/-- A ledger whose rows have a non-numeric and a non-positive meter factor:
no valid base row exists. -/
def demoNoValidHistory : List Row :=
  [[("MONTH", .str "Jan-25"), ("MF", .str "abc")],
   [("MONTH", .str "Feb-25"), ("MF", .str "0")]]

/-- A two-column header list (fewer than 12 headers). -/
def demoShortHeaders : List String := ["MONTH", "MF"]

/-- A row with a perfectly valid positive meter factor. -/
def demoShortRow : Row := [("MONTH", .str "Jan-25"), ("MF", .str "1000")]

/-- The demo row with a non-numeric previous-export cell. -/
def demoBadPrevRow : Row :=
  [("MONTH", .str "Jan-25"), ("MF", .str "1000"), ("EXPORT - CURRENT", .str "100"),
   ("EXPORT - PREVIOUS", .str "abc"), ("EXPORT - DIFFERENCE", .str "0"),
   ("EXPORT - KWH", .str "0"), ("IMPORT - CURRENT", .str "10"),
   ("IMPORT - PREVIOUS", .str "10"), ("IMPORT - DIFFERENCE", .str "0"),
   ("IMPORT - KWH", .str "0"), ("NET UNITS", .str "0"), ("RATE", .str "5"),
   ("BILL AMOUNT", .str "0")]

/-- The demo row with a thousands-separator previous-export cell. -/
def demoCommaRow : Row :=
  [("MONTH", .str "Jan-25"), ("MF", .str "1000"), ("EXPORT - CURRENT", .str "100"),
   ("EXPORT - PREVIOUS", .str "12,345.50"), ("EXPORT - DIFFERENCE", .str "0"),
   ("EXPORT - KWH", .str "0"), ("IMPORT - CURRENT", .str "10"),
   ("IMPORT - PREVIOUS", .str "10"), ("IMPORT - DIFFERENCE", .str "0"),
   ("IMPORT - KWH", .str "0"), ("NET UNITS", .str "0"), ("RATE", .str "5"),
   ("BILL AMOUNT", .str "0")]


/-- Column list of a dashboard record with plant-type and state columns. -/
def demoCols : List String :=
  ["Project Name", "Plant Type", "State", "Installed Capacity (MW)",
   "Contracted Capacity (MW)"]

/-- A solar record located within the state. -/
def demoSolarWithin : Row :=
  [("Project Name", .str "Alpha"), ("Plant Type", .str "Solar Power Plant"),
   ("State", .str "Within Punjab"), ("Installed Capacity (MW)", .str "10"),
   ("Contracted Capacity (MW)", .str "8")]

/-- A solar record located outside the state. -/
def demoSolarOutside : Row :=
  [("Project Name", .str "Beta"), ("Plant Type", .str "Solar Project"),
   ("State", .str "Rajasthan"), ("Installed Capacity (MW)", .str "25"),
   ("Contracted Capacity (MW)", .str "20")]

/-- A single-record project list whose contracted capacity is fractional. -/
def demoFractionalRecord : Row :=
  [("Project Name", .str "Gamma"), ("Contracted Capacity (MW)", .str "0.4")]

/-- A record with one pattern-matching generation column. -/
def demoGenRecord : Row :=
  [("Project Name", .str "Alpha"), ("Apr-24 Net Units", .str "2500000")]

/-! ## Lemmas: characters, digits, rendering and parsing -/

theorem digVal_digChar {d : ℕ} (h : d < 10) : digVal (digChar d) = d := by
  interval_cases d <;> rfl

theorem isDig_digChar {d : ℕ} (h : d < 10) : isDig (digChar d) = true := by
  interval_cases d <;> rfl

theorem isDig_ne_comma {c : Char} (h : isDig c = true) : c ≠ ',' := by
  intro h2; subst h2; exact absurd h (by decide)

theorem isDig_ne_dot {c : Char} (h : isDig c = true) : c ≠ '.' := by
  intro h2; subst h2; exact absurd h (by decide)

theorem isDig_not_ws {c : Char} (h : isDig c = true) : c.isWhitespace = false := by
  by_contra hw
  rw [Bool.not_eq_false] at hw
  have hc : ((c = ' ' ∨ c = '\t') ∨ c = '\r') ∨ c = '\n' := by
    simpa [Char.isWhitespace] using hw
  rcases hc with ((rfl | rfl) | rfl) | rfl <;> exact absurd h (by decide)

theorem digsVal_snoc (a : List Char) (c : Char) :
    digsVal (a ++ [c]) = 10 * digsVal a + digVal c := by
  rw [digsVal, digsVal, List.foldl_append]
  rfl

theorem natCharsF_acc (f : ℕ) : ∀ n acc, natCharsF f n acc = natCharsF f n [] ++ acc := by
  induction f with
  | zero => intro n acc; rfl
  | succ f ih =>
    intro n acc
    by_cases h : n < 10
    · simp [natCharsF, h]
    · simp only [natCharsF, h, if_false]
      rw [ih (n / 10) (digChar (n % 10) :: acc), ih (n / 10) [digChar (n % 10)]]
      simp

theorem natCharsF_ok : ∀ f n, n < f →
    (∀ c ∈ natCharsF f n [], isDig c = true) ∧
    digsVal (natCharsF f n []) = n ∧ natCharsF f n [] ≠ [] := by
  intro f
  induction f with
  | zero => intro n h; omega
  | succ f ih =>
    intro n h
    by_cases h10 : n < 10
    · refine ⟨?_, ?_, ?_⟩
      · intro c hc
        simp only [natCharsF, h10, if_true] at hc
        rcases List.mem_singleton.mp hc with rfl
        exact isDig_digChar h10
      · simp only [natCharsF, h10, if_true, digsVal, List.foldl]
        rw [digVal_digChar h10]
        omega
      · simp [natCharsF, h10]
    · have hd : n / 10 < f := by omega
      have hm : n % 10 < 10 := by omega
      have e1 : natCharsF (f + 1) n [] = natCharsF f (n / 10) [] ++ [digChar (n % 10)] := by
        simp only [natCharsF, h10, if_false]
        exact natCharsF_acc f (n / 10) [digChar (n % 10)]
      obtain ⟨hdig, hval, hne⟩ := ih (n / 10) hd
      refine ⟨?_, ?_, ?_⟩
      · intro c hc
        rw [e1] at hc
        rcases List.mem_append.mp hc with h1 | h1
        · exact hdig c h1
        · rcases List.mem_singleton.mp h1 with rfl
          exact isDig_digChar hm
      · rw [e1, digsVal_snoc, hval, digVal_digChar hm]
        omega
      · rw [e1]
        simp

theorem natChars_digits (n : ℕ) : ∀ c ∈ natChars n, isDig c = true :=
  (natCharsF_ok (n + 1) n (by omega)).1

theorem digsVal_natChars (n : ℕ) : digsVal (natChars n) = n :=
  (natCharsF_ok (n + 1) n (by omega)).2.1

theorem natChars_ne_nil (n : ℕ) : natChars n ≠ [] :=
  (natCharsF_ok (n + 1) n (by omega)).2.2

theorem natChars_two {r : ℕ} (h10 : 10 ≤ r) (h100 : r < 100) :
    natChars r = [digChar (r / 10), digChar (r % 10)] := by
  obtain ⟨f, rfl⟩ : ∃ f, r = f + 1 := ⟨r - 1, by omega⟩
  have hn : ¬ f + 1 < 10 := by omega
  have hq : (f + 1) / 10 < 10 := by omega
  show natCharsF (f + 1 + 1) (f + 1) [] = _
  simp [natCharsF, hn, hq]

theorem pad2_eq {b : ℕ} (h : b < 100) : pad2 b = [digChar (b / 10), digChar (b % 10)] := by
  by_cases h10 : b < 10
  · have e1 : b / 10 = 0 := by omega
    have e2 : b % 10 = b := by omega
    simp [pad2, h10, e1, e2]
    rfl
  · simp [pad2, h10, natChars_two (by omega) h]

theorem digsVal_pad2 {b : ℕ} (h : b < 100) : digsVal (pad2 b) = b := by
  rw [pad2_eq h]
  show digsVal ([digChar (b / 10)] ++ [digChar (b % 10)]) = b
  rw [digsVal_snoc]
  have h1 : b / 10 < 10 := by omega
  have h2 : b % 10 < 10 := by omega
  rw [digVal_digChar h2]
  show 10 * digsVal ([] ++ [digChar (b / 10)]) + b % 10 = b
  rw [digsVal_snoc, digVal_digChar h1]
  simp [digsVal]
  omega

theorem pad2_digits {b : ℕ} (h : b < 100) : ∀ c ∈ pad2 b, isDig c = true := by
  rw [pad2_eq h]
  intro c hc
  simp only [List.mem_cons, List.mem_singleton, List.not_mem_nil, or_false] at hc
  rcases hc with rfl | rfl <;> exact isDig_digChar (by omega)

theorem pad2_length {b : ℕ} (h : b < 100) : (pad2 b).length = 2 := by
  rw [pad2_eq h]
  rfl

theorem takeDigs_stop {r : List Char} (hr : ∀ c, r.head? = some c → isDig c = false) :
    ∀ l, (∀ c ∈ l, isDig c = true) → takeDigs (l ++ r) = (l, r) := by
  intro l
  induction l with
  | nil =>
    intro _
    cases r with
    | nil => rfl
    | cons c t => simp [takeDigs, hr c rfl]
  | cons c t ih =>
    intro hl
    have hc : isDig c = true := hl c (by simp)
    simp only [List.cons_append, takeDigs, hc, if_true]
    simp only [List.append_eq]
    rw [ih (fun x hx => hl x (by simp [hx]))]


theorem qadd_eq (a b : ℚ) : qadd a b = a + b := by
  have ha : ((a.den : ℚ)) ≠ 0 := by exact_mod_cast a.den_nz
  have hb : ((b.den : ℚ)) ≠ 0 := by exact_mod_cast b.den_nz
  rw [qadd, Rat.mkRat_eq_div]
  conv_rhs => rw [← Rat.num_div_den a, ← Rat.num_div_den b]
  push_cast
  field_simp
  try ring

theorem qsub_eq (a b : ℚ) : qsub a b = a - b := by
  have ha : ((a.den : ℚ)) ≠ 0 := by exact_mod_cast a.den_nz
  have hb : ((b.den : ℚ)) ≠ 0 := by exact_mod_cast b.den_nz
  rw [qsub, Rat.mkRat_eq_div]
  conv_rhs => rw [← Rat.num_div_den a, ← Rat.num_div_den b]
  push_cast
  field_simp
  try ring

theorem qmul_eq (a b : ℚ) : qmul a b = a * b := by
  have ha : ((a.den : ℚ)) ≠ 0 := by exact_mod_cast a.den_nz
  have hb : ((b.den : ℚ)) ≠ 0 := by exact_mod_cast b.den_nz
  rw [qmul, Rat.mkRat_eq_div]
  conv_rhs => rw [← Rat.num_div_den a, ← Rat.num_div_den b]
  push_cast
  field_simp

theorem qneg_eq (a : ℚ) : qneg a = -a := by
  have ha : ((a.den : ℚ)) ≠ 0 := by exact_mod_cast a.den_nz
  rw [qneg, Rat.mkRat_eq_div]
  conv_rhs => rw [← Rat.num_div_den a]
  push_cast
  field_simp

theorem qdiv_eq (a b : ℚ) : qdiv a b = a / b := by
  have ha : ((a.den : ℚ)) ≠ 0 := by exact_mod_cast a.den_nz
  have hb : ((b.den : ℚ)) ≠ 0 := by exact_mod_cast b.den_nz
  rw [qdiv, Rat.divInt_eq_div]
  conv_rhs => rw [← Rat.num_div_den a, ← Rat.num_div_den b]
  push_cast
  by_cases hb0 : (b.num : ℚ) = 0
  · simp [hb0]
  · field_simp
    try ring
    try tauto

theorem jsRound_eq (q : ℚ) : jsRound q = ⌊q + (1 : ℚ)/2⌋ := by
  have hden : (0 : ℤ) ≤ 2 * (q.den : ℤ) := by positivity
  have h1 : jsRound q = (2 * q.num + (q.den : ℤ)) / (2 * (q.den : ℤ)) := by
    rw [jsRound, Int.fdiv_eq_ediv _ hden]
  have hden' : ((q.den : ℚ)) ≠ 0 := by exact_mod_cast q.den_nz
  have h2 : q + (1 : ℚ)/2 = ((2 * q.num + (q.den : ℤ) : ℤ) : ℚ) / ((2 * q.den : ℕ) : ℚ) := by
    conv_lhs => rw [← Rat.num_div_den q]
    push_cast
    field_simp
    ring
  rw [h1, h2, Rat.floor_intCast_div_natCast]
  push_cast
  rfl


/-! ## Lemmas: the printed `toFixed(2)` string parses back -/

theorem stringMk_data (s : String) : String.mk s.data = s := by
  cases s
  rfl

theorem fixed2_data (q : ℚ) :
    (fixed2 q).data = ((if q.num < 0 then ['-'] else []) ++ natChars (fixed2Nat q / 100)) ++
      '.' :: pad2 (fixed2Nat q % 100) := rfl

theorem fixed2_chars (q : ℚ) :
    ∀ c ∈ (fixed2 q).data, c = '-' ∨ c = '.' ∨ isDig c = true := by
  intro c hc
  rw [fixed2_data] at hc
  rcases List.mem_append.mp hc with h1 | h1
  · rcases List.mem_append.mp h1 with h2 | h2
    · by_cases hn : q.num < 0
      · rw [if_pos hn] at h2
        left
        exact List.mem_singleton.mp h2
      · rw [if_neg hn] at h2
        cases h2
    · right; right
      exact natChars_digits _ c h2
  · rcases List.mem_cons.mp h1 with rfl | h2
    · right; left; rfl
    · right; right
      exact pad2_digits (Nat.mod_lt _ (by norm_num)) c h2

theorem fixed2_no_ws (q : ℚ) : ∀ c ∈ (fixed2 q).data, c.isWhitespace = false := by
  intro c hc
  rcases fixed2_chars q c hc with rfl | rfl | h
  · rfl
  · rfl
  · exact isDig_not_ws h

theorem fixed2_data_ne_nil (q : ℚ) : (fixed2 q).data ≠ [] := by
  rw [fixed2_data]
  simp

theorem dropWhile_ws_id {l : List Char} (h : ∀ c ∈ l, c.isWhitespace = false) :
    l.dropWhile Char.isWhitespace = l := by
  cases l with
  | nil => rfl
  | cons c t =>
    rw [List.dropWhile_cons]
    simp [h c (by simp)]

theorem trimEndWS_id {l : List Char} (h : ∀ c ∈ l, c.isWhitespace = false) :
    trimEndWS l = l := by
  induction l with
  | nil => rfl
  | cons c t ih =>
    have hc : c.isWhitespace = false := h c (by simp)
    have ht := ih (fun x hx => h x (by simp [hx]))
    cases t with
    | nil => simp [trimEndWS, hc]
    | cons d u =>
      calc trimEndWS (c :: d :: u)
          = (match trimEndWS (d :: u) with
             | [] => if c.isWhitespace then [] else [c]
             | r => c :: r) := rfl
        _ = (match d :: u with
             | [] => if c.isWhitespace then [] else [c]
             | r => c :: r) := by rw [ht]
        _ = c :: d :: u := rfl

theorem trimChars_fixed2 (q : ℚ) : trimChars (fixed2 q).data = (fixed2 q).data := by
  rw [trimChars, dropWhile_ws_id (fixed2_no_ws q), trimEndWS_id (fixed2_no_ws q)]

theorem parseDecCore_natDotPad (a b : ℕ) (hb : b < 100) :
    parseDecCore (natChars a ++ '.' :: pad2 b) = some (mkRat ((a * 100 + b : ℕ) : ℤ) 100, []) := by
  have hstop : takeDigs (natChars a ++ '.' :: pad2 b) = (natChars a, '.' :: pad2 b) := by
    apply takeDigs_stop
    · intro c hcc
      rw [List.head?_cons, Option.some_inj] at hcc
      subst hcc
      rfl
    · exact natChars_digits a
  have hfrac : parseFrac ('.' :: pad2 b) = (pad2 b, []) := by
    show takeDigs (pad2 b) = (pad2 b, [])
    have h0 := takeDigs_stop (r := []) (by intro c hcc; simp at hcc) (pad2 b) (pad2_digits hb)
    simpa using h0
  have h1 : (natChars a).isEmpty = false := by
    cases hnc : natChars a with
    | nil => exact absurd hnc (natChars_ne_nil a)
    | cons x xs => rfl
  simp only [parseDecCore, hstop, hfrac, h1, Bool.false_and, Bool.false_eq_true, if_false]
  have hval : qmul (mkRat ((digsVal (natChars a) * 10 ^ (pad2 b).length + digsVal (pad2 b) : ℕ) : ℤ)
      (10 ^ (pad2 b).length)) (pow10 (parseExp []).1) = mkRat ((a * 100 + b : ℕ) : ℤ) 100 := by
    have hp0 : pow10 (parseExp []).1 = 1 := by norm_num [parseExp, pow10]
    rw [hp0, qmul_eq, mul_one, digsVal_natChars, digsVal_pad2 hb, pad2_length hb]
    norm_num
  rw [hval]
  rfl

theorem parseSigned_fixed2 (q : ℚ) :
    parseSigned (fixed2 q).data = some (fixed2Val q, []) := by
  have hb : fixed2Nat q % 100 < 100 := Nat.mod_lt _ (by norm_num)
  have hdm : (fixed2Nat q / 100) * 100 + fixed2Nat q % 100 = fixed2Nat q := by omega
  by_cases hn : q.num < 0
  · have hd : (fixed2 q).data =
        '-' :: (natChars (fixed2Nat q / 100) ++ '.' :: pad2 (fixed2Nat q % 100)) := by
      rw [fixed2_data, if_pos hn]
      rfl
    rw [hd]
    simp only [parseSigned]
    rw [parseDecCore_natDotPad _ _ hb]
    rw [if_neg (by decide : ¬ (('-' : Char) = '+'))]
    have hq : q < 0 := by
      by_contra hge
      push_neg at hge
      have h0 := Rat.num_nonneg.mpr hge
      omega
    simp [fixed2Val, hdm, if_pos hq, if_pos hn]
  · cases hnc : natChars (fixed2Nat q / 100) with
    | nil => exact absurd hnc (natChars_ne_nil _)
    | cons c t =>
      have hcdig : isDig c = true := natChars_digits _ c (by rw [hnc]; simp)
      have h1 : ¬ (c = '+') := by
        intro hh
        rw [hh] at hcdig
        exact absurd hcdig (by decide)
      have h2 : ¬ (c = '-') := by
        intro hh
        rw [hh] at hcdig
        exact absurd hcdig (by decide)
      have hd : (fixed2 q).data = c :: (t ++ '.' :: pad2 (fixed2Nat q % 100)) := by
        rw [fixed2_data, if_neg hn, hnc]
        rfl
      rw [hd]
      simp only [parseSigned, if_neg h1, if_neg h2]
      rw [show c :: (t ++ '.' :: pad2 (fixed2Nat q % 100)) =
            natChars (fixed2Nat q / 100) ++ '.' :: pad2 (fixed2Nat q % 100) from by rw [hnc]; rfl]
      rw [parseDecCore_natDotPad _ _ hb]
      simp only [fixed2Val, if_neg hn, hdm]

theorem parseFloat_fixed2 (q : ℚ) : parseFloat (fixed2 q) = some (fixed2Val q) := by
  rw [parseFloat, dropWhile_ws_id (fixed2_no_ws q), parseSigned_fixed2]

theorem jsNumber_fixed2 (q : ℚ) : jsNumber (fixed2 q) = some (fixed2Val q) := by
  have h1 : (fixed2 q).data.isEmpty = false := by
    cases hd : (fixed2 q).data with
    | nil => exact absurd hd (fixed2_data_ne_nil q)
    | cons x xs => rfl
  simp only [jsNumber, trimChars_fixed2, h1, Bool.false_eq_true, if_false, parseSigned_fixed2]

theorem stripCommas_fixed2 (q : ℚ) : stripCommas (fixed2 q) = fixed2 q := by
  rw [stripCommas]
  have hf : (fixed2 q).data.filter (fun c => decide (c ≠ ',')) = (fixed2 q).data := by
    rw [List.filter_eq_self]
    intro c hc
    rcases fixed2_chars q c hc with rfl | rfl | h
    · rfl
    · rfl
    · simp [isDig_ne_comma h]
  rw [hf, stringMk_data]

/-! ## Lemmas: rows, the backward scan, and the live preview -/

theorem rowGet_rowSet_self (r : Row) (k : String) (v : Val) :
    rowGet (rowSet r k v) k = v := by
  induction r with
  | nil => simp [rowSet, rowGet]
  | cons p t ih =>
    obtain ⟨a, b⟩ := p
    by_cases h : a = k
    · simp [rowSet, rowGet, h]
    · simp [rowSet, rowGet, h, ih]

theorem rowGet_rowSet_ne (r : Row) {k k' : String} (v : Val) (h : k' ≠ k) :
    rowGet (rowSet r k v) k' = rowGet r k' := by
  induction r with
  | nil => simp [rowSet, rowGet, Ne.symm h]
  | cons p t ih =>
    obtain ⟨a, b⟩ := p
    by_cases ha : a = k
    · subst ha
      simp [rowSet, rowGet, Ne.symm h]
    · simp [rowSet, rowGet, ha, ih]

theorem lastValidRowAux_eq (headers : List String) (history : List Row) :
    lastValidRowAux headers history = history.reverse.find? (mfValid headers) := by
  induction history with
  | nil => rfl
  | cons r t ih =>
    rw [List.reverse_cons, List.find?_append, ← ih]
    cases ha : lastValidRowAux headers t with
    | some x => simp [lastValidRowAux, ha, Option.or]
    | none =>
      simp only [lastValidRowAux, ha, Option.or]
      cases hv : mfValid headers r <;> simp [List.find?, hv]

theorem mfValid_short {headers : List String} (h : headers.length < 2) (r : Row) :
    mfValid headers r = false := by
  have hnone : headers[1]? = none := List.getElem?_eq_none (by omega)
  simp [mfValid, hnone]

theorem lastValidRow_eq_find (history : List Row) (headers : List String) :
    lastValidRow history headers = history.reverse.find? (mfValid headers) := by
  rw [lastValidRow]
  by_cases hg : history.isEmpty || decide (headers.length < 2)
  · rw [if_pos (by simpa using hg)]
    rcases Bool.or_eq_true _ _ |>.mp hg with he | hl
    · rw [List.isEmpty_iff.mp he]
      rfl
    · symm
      rw [List.find?_eq_none]
      intro x _
      simp [mfValid_short (by simpa using hl) x]
  · rw [if_neg (by simpa using hg)]
    exact lastValidRowAux_eq headers history

theorem liveStats_none_of_noRow {history : List Row} {headers : List String}
    (curExp curImp : String) (h : lastValidRow history headers = none) :
    liveStats history headers curExp curImp = none := by
  rw [liveStats, h]

theorem liveStats_none_of_short {history : List Row} {headers : List String}
    (curExp curImp : String) (h : headers.length < 12) :
    liveStats history headers curExp curImp = none := by
  rw [liveStats]
  cases lastValidRow history headers with
  | none => rfl
  | some r => simp [h]

theorem liveStats_some_spec {history : List Row} {headers : List String}
    {curExp curImp : String} {s : LiveStats}
    (h : liveStats history headers curExp curImp = some s) :
    ∃ r, lastValidRow history headers = some r ∧ 12 ≤ headers.length ∧
      s.mf = getVal headers r 1 ∧ s.prevExport = getVal headers r 3 ∧
      s.prevImport = getVal headers r 7 ∧ s.rate = getVal headers r 11 := by
  by_cases h12 : headers.length < 12
  · rw [liveStats_none_of_short curExp curImp h12] at h
    cases h
  · cases hl : lastValidRow history headers with
    | none =>
      rw [liveStats_none_of_noRow curExp curImp hl] at h
      cases h
    | some r =>
      have hred : liveStats history headers curExp curImp =
          (if headers.length < 12 then none
           else some ⟨getVal headers r 1, getVal headers r 3, getVal headers r 7, getVal headers r 11,
             jsub (some (nanToZero (parseFloat curExp))) (getVal headers r 3),
             jmul (jsub (some (nanToZero (parseFloat curExp))) (getVal headers r 3)) (getVal headers r 1),
             jsub (some (nanToZero (parseFloat curImp))) (getVal headers r 7),
             jmul (jsub (some (nanToZero (parseFloat curImp))) (getVal headers r 7)) (getVal headers r 1),
             jsub (jmul (jsub (some (nanToZero (parseFloat curExp))) (getVal headers r 3)) (getVal headers r 1))
                  (jmul (jsub (some (nanToZero (parseFloat curImp))) (getVal headers r 7)) (getVal headers r 1)),
             jmul (jsub (jmul (jsub (some (nanToZero (parseFloat curExp))) (getVal headers r 3)) (getVal headers r 1))
                        (jmul (jsub (some (nanToZero (parseFloat curImp))) (getVal headers r 7)) (getVal headers r 1)))
                  (getVal headers r 11)⟩) := by
        rw [liveStats, hl]
      rw [hred, if_neg h12] at h
      simp only [Option.some_inj] at h
      refine ⟨r, rfl, by omega, ?_, ?_, ?_, ?_⟩ <;> rw [← h]

/-! ## Claim theorems -/

/-- C1: with meter factor 1000, rate 5, previous export 100, current export
150, previous import 10 and current import 10, both evaluation contexts of the
billing formula — the new-reading live preview (`liveStats`) and the in-place
row edit (`handleCellChange`) — compute diffExport = 50, kwhExport = 50000,
diffImport = 0, kwhImport = 0, netUnits = 50000 and bill = 250000
(`round(netUnits * rate)`); the row edit writes the derived cells as
two-decimal strings and the bill as a rounded integer string. -/
theorem C1_billing_formula_worked_example :
    liveStats [demoLedgerRow] demoHeaders "150" "10" =
      some ⟨some 1000, some 100, some 10, some 5, some 50, some 50000, some 0, some 0,
            some 50000, some 250000⟩ ∧
    (let st := handleCellChange ⟨[demoLedgerRow], ∅⟩ demoHeaders 0 "EXPORT - CURRENT" "150"
     rowGet (st.history.getD 0 []) "EXPORT - DIFFERENCE" = .str "50.00" ∧
     rowGet (st.history.getD 0 []) "EXPORT - KWH" = .str "50000.00" ∧
     rowGet (st.history.getD 0 []) "IMPORT - DIFFERENCE" = .str "0.00" ∧
     rowGet (st.history.getD 0 []) "IMPORT - KWH" = .str "0.00" ∧
     rowGet (st.history.getD 0 []) "NET UNITS" = .str "50000.00" ∧
     rowGet (st.history.getD 0 []) "BILL AMOUNT" = .str "250000") := by
  decide

/-- C2: the new-reading preview takes its base values from the most recent row
whose meter-factor cell holds a strictly positive number (`lastValidRow`
equals the backward search, i.e. `find?` over the reversed ledger, so rows
with non-numeric or non-positive MF are skipped entirely); when no such row
exists the preview is `none` and the fallback message is shown; when the
preview exists, its MF, previous export, previous import and rate all come
from that base row. -/
theorem C2_preview_base_row_selection (history : List Row) (headers : List String)
    (curExp curImp : String) :
    lastValidRow history headers = history.reverse.find? (mfValid headers) ∧
    (lastValidRow history headers = none →
      liveStats history headers curExp curImp = none ∧
      previewFallbackShown (liveStats history headers curExp curImp) = true) ∧
    (∀ s, liveStats history headers curExp curImp = some s →
      ∃ r, history.reverse.find? (mfValid headers) = some r ∧
        s.mf = getVal headers r 1 ∧ s.prevExport = getVal headers r 3 ∧
        s.prevImport = getVal headers r 7 ∧ s.rate = getVal headers r 11) := by
  refine ⟨lastValidRow_eq_find _ _, ?_, ?_⟩
  · intro h
    have h0 := liveStats_none_of_noRow curExp curImp h
    refine ⟨h0, ?_⟩
    rw [previewFallbackShown, h0]
    rfl
  · intro s hs
    obtain ⟨r, hr, _, h1, h2, h3, h4⟩ := liveStats_some_spec hs
    refine ⟨r, ?_, h1, h2, h3, h4⟩
    rw [← lastValidRow_eq_find]
    exact hr

/-- Witness for C2 at a concrete ledger whose rows have a non-numeric and a
non-positive meter factor. -/
theorem C2_preview_base_row_selection_witness :
    liveStats demoNoValidHistory demoHeaders "150" "10" = none ∧
    previewFallbackShown (liveStats demoNoValidHistory demoHeaders "150" "10") = true :=
  (C2_preview_base_row_selection demoNoValidHistory demoHeaders "150" "10").2.1 (by decide)

/-- C9: the preview reads the meter factor from header index 1 and the
previous export / previous import / rate from header indices 3, 7 and 11; with
fewer than 12 headers the preview is always `none`, even when a row with a
valid positive meter factor exists. -/
theorem C9_preview_needs_twelve_headers (history : List Row) (headers : List String)
    (curExp curImp : String) :
    (headers.length < 12 → liveStats history headers curExp curImp = none) ∧
    (∀ s, liveStats history headers curExp curImp = some s →
      ∃ r, lastValidRow history headers = some r ∧ 12 ≤ headers.length ∧
        s.mf = getVal headers r 1 ∧ s.prevExport = getVal headers r 3 ∧
        s.prevImport = getVal headers r 7 ∧ s.rate = getVal headers r 11) :=
  ⟨fun h => liveStats_none_of_short curExp curImp h, fun _ hs => liveStats_some_spec hs⟩

/-- Witness for C9: a two-header ledger with a valid positive meter-factor row
still gets no preview. -/
theorem C9_preview_needs_twelve_headers_witness :
    lastValidRow [demoShortRow] demoShortHeaders = some demoShortRow ∧
    liveStats [demoShortRow] demoShortHeaders "150" "10" = none :=
  ⟨by decide,
   (C9_preview_needs_twelve_headers [demoShortRow] demoShortHeaders "150" "10").1 (by decide)⟩

/-- C4 counterexample: in the live-preview path (`liveStats.getVal`,
ProjectDetail.tsx lines 86–90) a non-numeric cell does NOT parse to 0: the
cell `"abc"` under the previous-export header yields NaN (`none`), which
propagates into the preview, refuting the claim that "any non-numeric value
parses to 0" in every calculation path. -/
theorem C4_counterexample_nonnumeric_is_NaN :
    rowGet demoBadPrevRow "EXPORT - PREVIOUS" = .str "abc" ∧
    getVal demoHeaders demoBadPrevRow 3 = none ∧
    (liveStats [demoBadPrevRow] demoHeaders "0" "0").map LiveStats.prevExport = some none ∧
    (none : JNum) ≠ some (0 : ℚ) := by
  decide

/-- C4 amended: every calculation path strips thousands-separator commas
before parsing (`"12,345.50"` parses to 12345.50 in both the preview's
`getVal` and the row edit's `val`), and nothing raises; but non-numeric values
become 0 only in the row-edit `val` helper (whose `|| 0` coerces NaN); in the
preview's `getVal` (and in the net/bill reparse, which uses the same
fallback-free `parseFloat`) a non-numeric, non-empty cell yields NaN, with
only missing or empty cells defaulting through the `"0"` string. -/
theorem C4_amended_parsing_paths :
    (∀ (row : Row) (k : String), k ≠ "" →
        parseFloat (stripCommas (orDefault (rowGet row k) "0")) = none →
        cellNum row (some k) = 0) ∧
    (∀ (headers : List String) (row : Row) (i : ℕ) (k : String),
        headers.get? i = some k → k ≠ "" →
        parseFloat (stripCommas (orDefault (rowGet row k) "0")) = none →
        getVal headers row i = none) ∧
    getVal demoHeaders demoCommaRow 3 = some (mkRat 1234550 100) ∧
    cellNum demoCommaRow (some "EXPORT - PREVIOUS") = mkRat 1234550 100 := by
  refine ⟨?_, ?_, by decide, by decide⟩
  · intro row k hk hp
    simp [cellNum, hk, hp, nanToZero]
  · intro headers row i k hi hk hp
    rw [List.get?_eq_getElem?] at hi
    simp [getVal, hi, hk, hp]

/-- Witness for the amended C4 at the concrete non-numeric row. -/
theorem C4_amended_parsing_paths_witness :
    cellNum demoBadPrevRow (some "EXPORT - PREVIOUS") = 0 ∧
    getVal demoHeaders demoBadPrevRow 3 = none :=
  ⟨(C4_amended_parsing_paths).1 demoBadPrevRow "EXPORT - PREVIOUS" (by decide) (by decide),
   (C4_amended_parsing_paths).2.1 demoHeaders demoBadPrevRow 3 "EXPORT - PREVIOUS"
     (by decide) (by decide) (by decide)⟩

/-! ## Lemmas: substring survival under trim, replace and case mapping

The category special-casing of the aggregator tests `includes("solar")` on the
plant-type string after trimming and after deleting the first occurrences of
`" Power Plant"` and `" Project"`.  The lemmas below show that an occurrence of
`"Solar"` survives those operations: the deleted patterns contain no `'S'`, and
`"Solar"` contains no space or whitespace, so occurrences can never overlap. -/

theorem leadsWith_decomp {pat : List Char} :
    ∀ {l : List Char}, leadsWith pat l = true → l = pat ++ l.drop pat.length := by
  induction pat with
  | nil => intro l _; rfl
  | cons p ps ih =>
    intro l h
    cases l with
    | nil => exact absurd h (by rw [leadsWith]; simp)
    | cons a t =>
      rw [leadsWith, Bool.and_eq_true, beq_iff_eq] at h
      obtain ⟨rfl, h2⟩ := h
      have := ih h2
      calc p :: t = p :: (ps ++ t.drop ps.length) := by rw [← this]
        _ = (p :: ps) ++ (p :: t).drop (p :: ps).length := by simp

theorem hasSub_drop_left {c0 : Char} {S' P r : List Char}
    (hP : ∀ c ∈ P, c ≠ c0) (h : hasSub (c0 :: S') (P ++ r) = true) :
    hasSub (c0 :: S') r = true := by
  induction P with
  | nil => exact h
  | cons p ps ih =>
    rw [List.cons_append, hasSub, Bool.or_eq_true] at h
    rcases h with h1 | h1
    · rw [leadsWith, Bool.and_eq_true, beq_iff_eq] at h1
      exact absurd h1.1.symm (hP p (by simp))
    · exact ih (fun c hc => hP c (by simp [hc])) h1

theorem leadsWith_replaceOnce {p0 : Char} {P2 : List Char} :
    ∀ {S' t : List Char}, (∀ c ∈ S', c ≠ p0) → leadsWith S' t = true →
      leadsWith S' (replaceOnce (p0 :: P2) t) = true := by
  intro S'
  induction S' with
  | nil => intro t _ _; rfl
  | cons d D ih =>
    intro t hS h
    cases t with
    | nil => exact absurd h (by rw [leadsWith]; simp)
    | cons e t' =>
      rw [leadsWith, Bool.and_eq_true, beq_iff_eq] at h
      obtain ⟨rfl, h2⟩ := h
      have hne : leadsWith (p0 :: P2) (d :: t') = false := by
        rw [leadsWith]
        have : (p0 == d) = false := by
          rw [beq_eq_false_iff_ne]
          exact fun hedge => (hS d (by simp)) hedge.symm
        simp [this]
      rw [replaceOnce, hne]
      simp only [Bool.false_eq_true, if_false]
      rw [leadsWith, Bool.and_eq_true, beq_iff_eq]
      exact ⟨rfl, ih (fun c hc => hS c (by simp [hc])) h2⟩

theorem hasSub_replaceOnce {c0 p0 : Char} {S' P2 : List Char}
    (hP : ∀ c ∈ p0 :: P2, c ≠ c0) (hS : ∀ c ∈ c0 :: S', c ≠ p0) :
    ∀ {l : List Char}, hasSub (c0 :: S') l = true →
      hasSub (c0 :: S') (replaceOnce (p0 :: P2) l) = true := by
  intro l
  induction l with
  | nil => intro h; exact absurd h (by rw [hasSub]; simp)
  | cons c t ih =>
    intro h
    rw [hasSub, Bool.or_eq_true] at h
    by_cases hL : leadsWith (p0 :: P2) (c :: t) = true
    · rw [replaceOnce, hL]
      simp only [if_true]
      have hdec := leadsWith_decomp hL
      apply hasSub_drop_left hP
      rw [← hdec]
      rw [hasSub, Bool.or_eq_true]
      exact h
    · rw [replaceOnce, if_neg hL]
      rcases h with h1 | h1
      · rw [leadsWith, Bool.and_eq_true, beq_iff_eq] at h1
        obtain ⟨rfl, h2⟩ := h1
        rw [hasSub, Bool.or_eq_true]
        left
        rw [leadsWith, Bool.and_eq_true, beq_iff_eq]
        exact ⟨rfl, leadsWith_replaceOnce (fun c hc => hS c (by simp [hc])) h2⟩
      · rw [hasSub, Bool.or_eq_true]
        right
        exact ih h1

theorem hasSub_dropWhileWS {c0 : Char} {S' : List Char} (hc0 : c0.isWhitespace = false) :
    ∀ {l : List Char}, hasSub (c0 :: S') l = true →
      hasSub (c0 :: S') (l.dropWhile Char.isWhitespace) = true := by
  intro l
  induction l with
  | nil => intro h; exact h
  | cons c t ih =>
    intro h
    rw [List.dropWhile_cons]
    by_cases hw : c.isWhitespace = true
    · rw [if_pos hw]
      rw [hasSub, Bool.or_eq_true] at h
      rcases h with h1 | h1
      · rw [leadsWith, Bool.and_eq_true, beq_iff_eq] at h1
        obtain ⟨rfl, _⟩ := h1
        rw [hc0] at hw
        cases hw
      · exact ih h1
    · rw [if_neg hw]
      exact h

theorem trimEndWS_ne_nil {f : Char} {u : List Char} (hf : f.isWhitespace = false) :
    trimEndWS (f :: u) ≠ [] := by
  cases hu : trimEndWS u with
  | nil =>
    calc trimEndWS (f :: u)
        = (match trimEndWS u with
           | [] => if f.isWhitespace then [] else [f]
           | r => f :: r) := rfl
      _ = [f] := by rw [hu]; simp [hf]
      _ ≠ [] := by simp
  | cons x xs =>
    calc trimEndWS (f :: u)
        = (match trimEndWS u with
           | [] => if f.isWhitespace then [] else [f]
           | r => f :: r) := rfl
      _ = f :: x :: xs := by rw [hu]
      _ ≠ [] := by simp

theorem leadsWith_trimEndWS {S' : List Char} (hS : ∀ c ∈ S', c.isWhitespace = false) :
    ∀ {t : List Char}, leadsWith S' t = true → leadsWith S' (trimEndWS t) = true := by
  induction S' with
  | nil => intro t _; rfl
  | cons d D ih =>
    intro t h
    cases t with
    | nil => exact absurd h (by rw [leadsWith]; simp)
    | cons e t' =>
      rw [leadsWith, Bool.and_eq_true, beq_iff_eq] at h
      obtain ⟨rfl, h2⟩ := h
      have hd : d.isWhitespace = false := hS d (by simp)
      have hstep : trimEndWS (d :: t') =
          (match trimEndWS t' with
           | [] => if d.isWhitespace then [] else [d]
           | r => d :: r) := rfl
      cases D with
      | nil =>
        cases ht' : trimEndWS t' with
        | nil =>
          rw [hstep, ht']
          simp [hd, leadsWith]
        | cons x xs =>
          rw [hstep, ht']
          rw [leadsWith]
          simp [leadsWith]
      | cons d2 D2 =>
        cases t' with
        | nil => exact absurd h2 (by rw [leadsWith]; simp)
        | cons f t'' =>
          have hf : f.isWhitespace = false := by
            rw [leadsWith, Bool.and_eq_true, beq_iff_eq] at h2
            obtain ⟨rfl, _⟩ := h2
            exact hS d2 (by simp)
          cases ht' : trimEndWS (f :: t'') with
          | nil => exact absurd ht' (trimEndWS_ne_nil hf)
          | cons x xs =>
            rw [hstep, ht']
            rw [leadsWith, Bool.and_eq_true, beq_iff_eq]
            refine ⟨rfl, ?_⟩
            rw [← ht']
            exact ih (fun c hc => hS c (by simp [hc])) h2

theorem hasSub_trimEndWS {c0 : Char} {S' : List Char}
    (hS : ∀ c ∈ c0 :: S', c.isWhitespace = false) :
    ∀ {l : List Char}, hasSub (c0 :: S') l = true →
      hasSub (c0 :: S') (trimEndWS l) = true := by
  intro l
  induction l with
  | nil => intro h; exact h
  | cons c t ih =>
    intro h
    rw [hasSub, Bool.or_eq_true] at h
    have hstep : trimEndWS (c :: t) =
        (match trimEndWS t with
         | [] => if c.isWhitespace then [] else [c]
         | r => c :: r) := rfl
    rcases h with h1 | h1
    · have hcc : c = c0 ∧ leadsWith S' t = true := by
        rw [leadsWith, Bool.and_eq_true, beq_iff_eq] at h1
        exact ⟨h1.1.symm, h1.2⟩
      obtain ⟨rfl, h2⟩ := hcc
      have hc0 : c.isWhitespace = false := hS c (by simp)
      cases S' with
      | nil =>
        cases ht : trimEndWS t with
        | nil =>
          rw [hstep, ht]
          simp [hc0, hasSub, leadsWith]
        | cons x xs =>
          rw [hstep, ht, hasSub, Bool.or_eq_true]
          left
          rw [leadsWith]
          simp [leadsWith]
      | cons d D =>
        cases t with
        | nil => exact absurd h2 (by rw [leadsWith]; simp)
        | cons f t'' =>
          have hfws : f.isWhitespace = false := by
            rw [leadsWith, Bool.and_eq_true, beq_iff_eq] at h2
            obtain ⟨rfl, _⟩ := h2
            exact hS d (by simp)
          cases ht : trimEndWS (f :: t'') with
          | nil => exact absurd ht (trimEndWS_ne_nil hfws)
          | cons x xs =>
            rw [hstep, ht, hasSub, Bool.or_eq_true]
            left
            rw [leadsWith, Bool.and_eq_true, beq_iff_eq]
            refine ⟨rfl, ?_⟩
            rw [← ht]
            exact leadsWith_trimEndWS (fun e he => hS e (by simp [he])) h2
    · have h2 := ih h1
      cases ht : trimEndWS t with
      | nil =>
        rw [ht] at h2
        exact absurd h2 (by rw [hasSub]; simp)
      | cons x xs =>
        rw [hstep, ht, hasSub, Bool.or_eq_true]
        right
        rw [← ht]
        exact h2

theorem leadsWith_map (f : Char → Char) :
    ∀ {S l : List Char}, leadsWith S l = true → leadsWith (S.map f) (l.map f) = true := by
  intro S
  induction S with
  | nil => intro l _; rfl
  | cons d D ih =>
    intro l h
    cases l with
    | nil => exact absurd h (by rw [leadsWith]; simp)
    | cons e t =>
      rw [leadsWith, Bool.and_eq_true, beq_iff_eq] at h
      obtain ⟨rfl, h2⟩ := h
      rw [List.map_cons, List.map_cons, leadsWith, Bool.and_eq_true, beq_iff_eq]
      exact ⟨rfl, ih h2⟩

theorem hasSub_map (f : Char → Char) :
    ∀ {S l : List Char}, hasSub S l = true → hasSub (S.map f) (l.map f) = true := by
  intro S l
  induction l with
  | nil =>
    intro h
    rw [hasSub] at h
    rw [List.isEmpty_iff] at h
    subst h
    rfl
  | cons c t ih =>
    intro h
    rw [hasSub, Bool.or_eq_true] at h
    rw [List.map_cons, hasSub, Bool.or_eq_true]
    rcases h with h1 | h1
    · left
      have := leadsWith_map f h1
      rwa [List.map_cons] at this
    · right
      exact ih h1

/-- An occurrence of `"Solar"` in the raw plant-type string survives trimming,
the deletion of `" Power Plant"` and `" Project"`, and lower-casing. -/
theorem solar_survives (s : String) (h : hasSubStr s "Solar" = true) :
    lcHas (strReplaceOnce (strReplaceOnce (trimStr s) " Power Plant") " Project") "solar" = true := by
  rw [hasSubStr] at h
  have h1 : hasSub "Solar".data (trimChars s.data) = true := by
    rw [trimChars]
    apply hasSub_trimEndWS (by decide)
    exact hasSub_dropWhileWS (by decide) h
  have h2 : hasSub "Solar".data
      (replaceOnce " Power Plant".data (trimChars s.data)) = true :=
    hasSub_replaceOnce (by decide) (by decide) h1
  have h3 : hasSub "Solar".data
      (replaceOnce " Project".data (replaceOnce " Power Plant".data (trimChars s.data))) = true :=
    hasSub_replaceOnce (by decide) (by decide) h2
  have h4 := hasSub_map Char.toLower h3
  rw [show "Solar".data.map Char.toLower = "solar".data from by decide] at h4
  exact h4

/-- C6: a record whose plant-type cell contains `"Solar"` is always assigned
one of the two special category labels: exactly `"Solar (Punjab)"` when the
resolved state cell's value contains `"within"` case-insensitively (the
`isPunjabOf` test, which is false when no state column resolves), and exactly
`"Solar (Outside)"` otherwise.  The hypothesis is on the raw cell, and the
containment survives the trim / suffix-stripping of the group-key derivation
(`solar_survives`). -/
theorem C6_solar_category_labels (cols : List String) (p : Row) (s : String)
    (h1 : rowGet p (typeColOf cols) = .str s) (h2 : hasSubStr s "Solar" = true) :
    groupKeyOf cols p =
      if isPunjabOf cols p = true then "Solar (Punjab)" else "Solar (Outside)" := by
  have hne : s ≠ "" := by
    intro he
    subst he
    exact absurd h2 (by decide)
  have hraw : rawTypeOf cols p = trimStr s := by
    rw [rawTypeOf, h1, orDefault, if_neg hne]
  have hsolar := solar_survives s h2
  simp only [groupKeyOf, hraw]
  by_cases hp : isPunjabOf cols p = true
  · rw [if_pos hp]
    simp [hp, hsolar]
  · rw [if_neg hp]
    rw [Bool.not_eq_true] at hp
    simp [hp, hsolar]

/-- Witness for C6 on concrete within-state and outside-state solar records. -/
theorem C6_solar_category_labels_witness :
    groupKeyOf demoCols demoSolarWithin = "Solar (Punjab)" ∧
    groupKeyOf demoCols demoSolarOutside = "Solar (Outside)" := by
  constructor
  · have h := C6_solar_category_labels demoCols demoSolarWithin "Solar Power Plant"
      (by decide) (by decide)
    rw [h]
    decide
  · have h := C6_solar_category_labels demoCols demoSolarOutside "Solar Project"
      (by decide) (by decide)
    rw [h]
    decide

/-! ## Lemmas: the aggregation fold and the stable sort -/

theorem stepGenCol_skeleton (p : Row) (st : AggSt) (g : String) :
    (stepGenCol p st g).totalCapacity = st.totalCapacity ∧
    (stepGenCol p st g).typeGroups = st.typeGroups := by
  cases hm : monthLabel? g with
  | none => simp [stepGenCol, hm]
  | some m =>
    cases hc : cellOf p g with
    | none => simp [stepGenCol, hm, hc]
    | some v => by_cases hv : 0 < v <;> simp [stepGenCol, hm, hc, hv]

theorem genFold_skeleton (p : Row) : ∀ (gcols : List String) (st : AggSt),
    (gcols.foldl (stepGenCol p) st).totalCapacity = st.totalCapacity ∧
    (gcols.foldl (stepGenCol p) st).typeGroups = st.typeGroups := by
  intro gcols
  induction gcols with
  | nil => intro st; exact ⟨rfl, rfl⟩
  | cons g t ih =>
    intro st
    rw [List.foldl_cons]
    obtain ⟨h1, h2⟩ := ih (stepGenCol p st g)
    obtain ⟨h3, h4⟩ := stepGenCol_skeleton p st g
    exact ⟨h1.trans h3, h2.trans h4⟩

theorem stepRecord_totalCapacity (cols : List String) (st : AggSt) (p : Row) :
    (stepRecord cols st p).totalCapacity =
      jadd st.totalCapacity (cellOf p (contractedColOf cols)) := by
  rw [stepRecord]
  exact (genFold_skeleton p (genColsOf cols) _).1

theorem stepRecord_typeGroups (cols : List String) (st : AggSt) (p : Row) :
    (stepRecord cols st p).typeGroups =
      bumpGroup (groupKeyOf cols p) (cellOf p (capColOf cols))
        (cellOf p (contractedColOf cols)) st.typeGroups := by
  rw [stepRecord]
  exact (genFold_skeleton p (genColsOf cols) _).2

theorem foldRecords_totalCapacity (cols : List String) :
    ∀ (ps : List Row) (st : AggSt),
      (ps.foldl (stepRecord cols) st).totalCapacity =
        ps.foldl (fun acc p => jadd acc (cellOf p (contractedColOf cols))) st.totalCapacity := by
  intro ps
  induction ps with
  | nil => intro st; rfl
  | cons p t ih =>
    intro st
    rw [List.foldl_cons, List.foldl_cons, ih, stepRecord_totalCapacity]

theorem bumpGroup_countSum (key : String) (cap con : JNum) :
    ∀ l : List (String × Group),
      ((bumpGroup key cap con l).map (fun e => e.2.count)).sum =
        (l.map (fun e => e.2.count)).sum + 1 := by
  intro l
  induction l with
  | nil => simp [bumpGroup]
  | cons e t ih =>
    obtain ⟨k, g⟩ := e
    by_cases hk : k = key
    · simp only [bumpGroup, hk, if_true, List.map_cons, List.sum_cons]
      omega
    · simp only [bumpGroup, hk, Bool.false_eq_true, if_false, List.map_cons, List.sum_cons, ih]
      omega

theorem foldRecords_countSum (cols : List String) :
    ∀ (ps : List Row) (st : AggSt),
      (((ps.foldl (stepRecord cols) st).typeGroups).map (fun e => e.2.count)).sum =
        (st.typeGroups.map (fun e => e.2.count)).sum + ps.length := by
  intro ps
  induction ps with
  | nil => intro st; simp
  | cons p t ih =>
    intro st
    rw [List.foldl_cons, ih, stepRecord_typeGroups, bumpGroup_countSum]
    simp
    omega

theorem insertSorted_perm {α : Type} (le : α → α → Bool) (a : α) :
    ∀ l : List α, (insertSorted le a l).Perm (a :: l) := by
  intro l
  induction l with
  | nil => exact List.Perm.refl _
  | cons b t ih =>
    rw [insertSorted]
    by_cases h : le a b = true
    · rw [if_pos h]
    · rw [if_neg h]
      exact (ih.cons b).trans (List.Perm.swap a b t)

theorem stableSort_perm {α : Type} (le : α → α → Bool) :
    ∀ l : List α, (stableSort le l).Perm l := by
  intro l
  induction l with
  | nil => exact List.Perm.refl _
  | cons a t ih =>
    rw [stableSort]
    exact (insertSorted_perm le a _).trans (ih.cons a)

theorem insertSorted_mem {α : Type} {le : α → α → Bool} {a x : α} {l : List α} :
    x ∈ insertSorted le a l ↔ x = a ∨ x ∈ l :=
  ⟨fun h => by
     have := (insertSorted_perm le a l).mem_iff.mp h
     simpa using this,
   fun h => (insertSorted_perm le a l).mem_iff.mpr (by simpa using h)⟩

theorem stableSort_mem {α : Type} {le : α → α → Bool} {x : α} {l : List α} :
    x ∈ stableSort le l ↔ x ∈ l :=
  (stableSort_perm le l).mem_iff

/-- C10: for a non-empty project list, the reported total project count equals
the length of the input list, and the per-category counts over all category
groups also sum to that length: the fold assigns every record to exactly one
group, and the final sort permutes the groups without changing the sum. -/
theorem C10_counts_partition_records (projects : List Row) (h : projects ≠ []) :
    (aggregate projects).totalCount = projects.length ∧
    ((aggregate projects).groups.map Group.count).sum = projects.length := by
  have hne : projects.isEmpty = false := by
    cases projects with
    | nil => exact absurd rfl h
    | cons _ _ => rfl
  constructor
  · rw [aggregate]
    simp [hne]
  · rw [aggregate]
    simp only [hne, Bool.false_eq_true, if_false]
    have hperm := (stableSort_perm groupLe
      (((projects.foldl (stepRecord ((projects.headD []).map Prod.fst))
        { totalCapacity := some 0, totalGen := 0, typeGroups := [], monthly := [] }).typeGroups).map
          Prod.snd)).map Group.count
    rw [hperm.sum_eq, List.map_map]
    have hcs := foldRecords_countSum ((projects.headD []).map Prod.fst) projects
      { totalCapacity := some 0, totalGen := 0, typeGroups := [], monthly := [] }
    simp only [List.map_nil, List.sum_nil, Nat.zero_add] at hcs
    rw [show (Group.count ∘ Prod.snd : String × Group → ℕ) = fun e => e.2.count from rfl]
    exact hcs

/-- Witness for C10 on a concrete two-record list. -/
theorem C10_counts_partition_records_witness :
    (aggregate [demoSolarWithin, demoSolarOutside]).totalCount = 2 ∧
    ((aggregate [demoSolarWithin, demoSolarOutside]).groups.map Group.count).sum = 2 := by
  have h := C10_counts_partition_records [demoSolarWithin, demoSolarOutside] (by decide)
  simpa using h

/-- C5 counterexample: the reported total system capacity is NOT the sum of
the contracted-capacity values — the source rounds it with `Math.round`.  With
one record whose contracted capacity is `"0.4"` the sum is 2/5 but the
aggregator reports 0. -/
theorem C5_counterexample_total_is_rounded :
    contractedSum [demoFractionalRecord] = some (mkRat 2 5) ∧
    (aggregate [demoFractionalRecord]).totalCapacity = some 0 ∧
    some (0 : ℚ) ≠ some (mkRat 2 5) := by
  decide

/-- C5 amended: for every non-empty project list, the reported total system
capacity is `Math.round` of the running sum of the contracted-capacity column
(not the installed-capacity column) over all records, where a missing or empty
cell contributes zero; a non-numeric cell makes the whole sum (and the
reported total) NaN, propagated by `jadd`/`jround`. -/
theorem C5_amended_total_capacity (projects : List Row) (h : projects ≠ []) :
    (aggregate projects).totalCapacity = jround (contractedSum projects) ∧
    (∀ (p : Row) (col : String), rowGet p col = Val.undef → cellOf p col = some 0) := by
  constructor
  · have hne : projects.isEmpty = false := by
      cases projects with
      | nil => exact absurd rfl h
      | cons _ _ => rfl
    rw [aggregate]
    simp only [hne, Bool.false_eq_true, if_false]
    rw [contractedSum]
    congr 1
    exact foldRecords_totalCapacity ((projects.headD []).map Prod.fst) projects _
  · intro p col hc
    rw [cellOf, hc]
    rfl

/-- Witness for the amended C5 at the fractional-capacity record. -/
theorem C5_amended_total_capacity_witness :
    (aggregate [demoFractionalRecord]).totalCapacity =
      jround (contractedSum [demoFractionalRecord]) :=
  (C5_amended_total_capacity [demoFractionalRecord] (by decide)).1

theorem insertSorted_pairwise {α : Type} (le : α → α → Bool) (a : α) :
    ∀ l : List α,
      (∀ x ∈ l, le a x = true ∨ le x a = true) →
      (∀ x ∈ l, ∀ y ∈ l, le a x = true → le x y = true → le a y = true) →
      l.Pairwise (fun x y => le x y = true) →
      (insertSorted le a l).Pairwise (fun x y => le x y = true) := by
  intro l
  induction l with
  | nil => intro _ _ _; simp [insertSorted]
  | cons b t ih =>
    intro htot htrans hp
    rw [insertSorted]
    rw [List.pairwise_cons] at hp
    obtain ⟨hb, hpt⟩ := hp
    by_cases hab : le a b = true
    · rw [if_pos hab, List.pairwise_cons]
      refine ⟨?_, List.pairwise_cons.mpr ⟨hb, hpt⟩⟩
      intro x hx
      rcases List.mem_cons.mp hx with rfl | hxt
      · exact hab
      · exact htrans b (by simp) x (by simp [hxt]) hab (hb x hxt)
    · rw [if_neg hab, List.pairwise_cons]
      constructor
      · intro x hx
        rcases insertSorted_mem.mp hx with rfl | hxt
        · rcases htot b (by simp) with h1 | h1
          · exact absurd h1 hab
          · exact h1
        · exact hb x hxt
      · exact ih (fun x hx => htot x (by simp [hx]))
          (fun x hx y hy => htrans x (by simp [hx]) y (by simp [hy])) hpt

theorem stableSort_pairwise {α : Type} (le : α → α → Bool) :
    ∀ l : List α,
      (∀ x ∈ l, ∀ y ∈ l, le x y = true ∨ le y x = true) →
      (∀ x ∈ l, ∀ y ∈ l, ∀ z ∈ l, le x y = true → le y z = true → le x z = true) →
      (stableSort le l).Pairwise (fun x y => le x y = true) := by
  intro l
  induction l with
  | nil => intro _ _; simp [stableSort]
  | cons a t ih =>
    intro htot htrans
    rw [stableSort]
    apply insertSorted_pairwise
    · intro x hx
      exact htot a (by simp) x (by simp [stableSort_mem.mp hx])
    · intro x hx y hy hax hxy
      exact htrans a (by simp) x (by simp [stableSort_mem.mp hx])
        y (by simp [stableSort_mem.mp hy]) hax hxy
    · exact ih (fun x hx y hy => htot x (by simp [hx]) y (by simp [hy]))
        (fun x hx y hy z hz => htrans x (by simp [hx]) y (by simp [hy]) z (by simp [hz]))

theorem stableSort_punjabFirst :
    ∀ l : List Group, (∃ g ∈ l, g.name = "Solar (Punjab)") →
      ∃ g', (stableSort groupLe l).head? = some g' ∧ g'.name = "Solar (Punjab)" := by
  intro l
  induction l with
  | nil => rintro ⟨g, hg, _⟩; cases hg
  | cons a t ih =>
    rintro ⟨g, hg, hname⟩
    rw [stableSort]
    rcases List.mem_cons.mp hg with rfl | hgt
    · cases hs : stableSort groupLe t with
      | nil => exact ⟨g, rfl, hname⟩
      | cons b r =>
        have hle : groupLe g b = true := by rw [groupLe, if_pos hname]
        exact ⟨g, by rw [insertSorted, if_pos hle]; rfl, hname⟩
    · obtain ⟨g', hh, hname'⟩ := ih ⟨g, hgt, hname⟩
      cases hs : stableSort groupLe t with
      | nil =>
        rw [hs] at hh
        cases hh
      | cons b r =>
        rw [hs] at hh
        have hb : b = g' := by
          simp only [List.head?_cons, Option.some_inj] at hh
          exact hh
        subst hb
        by_cases hab : groupLe a b = true
        · have haP : a.name = "Solar (Punjab)" := by
            by_contra hnp
            rw [groupLe, if_neg hnp, if_pos hname'] at hab
            exact absurd hab (by simp)
          exact ⟨a, by rw [insertSorted, if_pos hab]; rfl, haP⟩
        · exact ⟨b, by rw [insertSorted, if_neg hab]; rfl, hname'⟩

theorem groupLe_total (a b : Group) : groupLe a b = true ∨ groupLe b a = true := by
  by_cases ha : a.name = "Solar (Punjab)"
  · left; rw [groupLe, if_pos ha]
  · by_cases hb : b.name = "Solar (Punjab)"
    · right; rw [groupLe, if_pos hb]
    · rw [groupLe, if_neg ha, if_neg hb, groupLe, if_neg hb, if_neg ha]
      cases hx : a.installed with
      | none => left; rfl
      | some x =>
        cases hy : b.installed with
        | none => left; rfl
        | some y =>
          rcases le_total y x with h | h
          · left; simpa using h
          · right; simpa using h

theorem groupLe_trans {a b c : Group}
    (hia : a.installed.isSome = true) (hib : b.installed.isSome = true)
    (hic : c.installed.isSome = true)
    (hab : groupLe a b = true) (hbc : groupLe b c = true) : groupLe a c = true := by
  by_cases ha : a.name = "Solar (Punjab)"
  · rw [groupLe, if_pos ha]
  · rw [groupLe, if_neg ha] at hab
    by_cases hb : b.name = "Solar (Punjab)"
    · rw [if_pos hb] at hab
      exact absurd hab (by simp)
    · rw [if_neg hb] at hab
      rw [groupLe, if_neg hb] at hbc
      by_cases hc : c.name = "Solar (Punjab)"
      · rw [if_pos hc] at hbc
        exact absurd hbc (by simp)
      · rw [if_neg hc] at hbc
        rw [groupLe, if_neg ha, if_neg hc]
        obtain ⟨x, hx⟩ := Option.isSome_iff_exists.mp hia
        obtain ⟨y, hy⟩ := Option.isSome_iff_exists.mp hib
        obtain ⟨z, hz⟩ := Option.isSome_iff_exists.mp hic
        rw [hx, hy] at hab
        rw [hy, hz] at hbc
        rw [hx, hz]
        simp only [decide_eq_true_eq] at hab hbc ⊢
        exact le_trans hbc hab

/-- C7: in the aggregator's output, the category group named "Solar (Punjab)"
(when present) is placed first regardless of its capacity values; and whenever
the installed sums are actual numbers (no NaN), the remaining groups appear in
descending order of summed installed capacity. -/
theorem C7_punjab_first_then_descending (projects : List Row) :
    ((∃ g ∈ (aggregate projects).groups, g.name = "Solar (Punjab)") →
      ∃ g', ((aggregate projects).groups).head? = some g' ∧
        g'.name = "Solar (Punjab)") ∧
    ((∀ g ∈ (aggregate projects).groups, g.installed.isSome = true) →
      (((aggregate projects).groups).filter
          (fun g => !(g.name == "Solar (Punjab)"))).Pairwise
        (fun a b => ∃ x y, a.installed = some x ∧ b.installed = some y ∧ y ≤ x)) := by
  cases hp : projects.isEmpty with
  | true =>
    have hgr : (aggregate projects).groups = [] := by
      rw [aggregate]
      simp [hp]
    constructor
    · rintro ⟨g, hm, _⟩
      rw [hgr] at hm
      cases hm
    · intro _
      rw [hgr]
      simp
  | false =>
    have hgr : (aggregate projects).groups = stableSort groupLe
        (((projects.foldl (stepRecord ((projects.headD []).map Prod.fst))
          { totalCapacity := some 0, totalGen := 0, typeGroups := [],
            monthly := [] }).typeGroups).map Prod.snd) := by
      rw [aggregate]
      simp [hp]
    constructor
    · intro hex
      rw [hgr] at hex ⊢
      apply stableSort_punjabFirst
      obtain ⟨g, hm, hn⟩ := hex
      exact ⟨g, stableSort_mem.mp hm, hn⟩
    · intro hAll
      rw [hgr] at hAll ⊢
      have hAll' : ∀ g ∈ ((projects.foldl (stepRecord ((projects.headD []).map Prod.fst))
          { totalCapacity := some 0, totalGen := 0, typeGroups := [],
            monthly := [] }).typeGroups).map Prod.snd, g.installed.isSome = true :=
        fun g hg => hAll g (stableSort_mem.mpr hg)
      have hpair := stableSort_pairwise groupLe _
        (fun x _ y _ => groupLe_total x y)
        (fun x hx y hy z hz => groupLe_trans (hAll' x hx) (hAll' y hy) (hAll' z hz))
      have hfil := hpair.filter (fun g => !(g.name == "Solar (Punjab)"))
      apply List.Pairwise.imp_of_mem ?_ hfil
      intro a b ha hb hab
      have haM : a ∈ stableSort groupLe _ := List.mem_of_mem_filter ha
      have hbM : b ∈ stableSort groupLe _ := List.mem_of_mem_filter hb
      have haP : ¬ a.name = "Solar (Punjab)" := by
        have h0 := List.of_mem_filter ha
        simpa using h0
      have hbP : ¬ b.name = "Solar (Punjab)" := by
        have h0 := List.of_mem_filter hb
        simpa using h0
      obtain ⟨x, hx⟩ := Option.isSome_iff_exists.mp (hAll' a (stableSort_mem.mp haM))
      obtain ⟨y, hy⟩ := Option.isSome_iff_exists.mp (hAll' b (stableSort_mem.mp hbM))
      refine ⟨x, y, hx, hy, ?_⟩
      rw [groupLe, if_neg haP, if_neg hbP, hx, hy] at hab
      simpa using hab

/-- Witness for C7: with a Punjab solar group of 10 MW and an outside solar
group of 25 MW, the Punjab group still comes first. -/
theorem C7_punjab_first_then_descending_witness :
    (∃ g', ((aggregate [demoSolarWithin, demoSolarOutside]).groups).head? = some g' ∧
      g'.name = "Solar (Punjab)") ∧
    (((aggregate [demoSolarWithin, demoSolarOutside]).groups).filter
        (fun g => !(g.name == "Solar (Punjab)"))).Pairwise
      (fun a b => ∃ x y, a.installed = some x ∧ b.installed = some y ∧ y ≤ x) :=
  ⟨(C7_punjab_first_then_descending [demoSolarWithin, demoSolarOutside]).1 (by decide),
   (C7_punjab_first_then_descending [demoSolarWithin, demoSolarOutside]).2 (by decide)⟩

/-! ## Lemmas: the monthly accumulation equals the direct double sum -/

theorem bumpMonth_assocVal (label : String) (v : ℚ) :
    ∀ (l : List (String × ℚ)) (k : String),
      assocVal (bumpMonth label v l) k = assocVal l k + (if k = label then v else 0) := by
  intro l
  induction l with
  | nil =>
    intro k
    by_cases hk : k = label
    · subst hk
      simp [bumpMonth, assocVal]
    · have hk2 : ¬ label = k := fun h => hk h.symm
      simp [bumpMonth, assocVal, hk, hk2]
  | cons e t ih =>
    intro k
    obtain ⟨k', x⟩ := e
    by_cases h1 : k' = label
    · subst h1
      by_cases h2 : k' = k
      · subst h2
        simp [bumpMonth, assocVal, qadd_eq]
      · have h2b : ¬ k = k' := fun h => h2 h.symm
        simp [bumpMonth, assocVal, h2, h2b]
    · by_cases h2 : k' = k
      · subst h2
        have h1b : ¬ k' = label := h1
        simp [bumpMonth, assocVal, h1b]
      · simp [bumpMonth, assocVal, h1, h2, ih]

theorem bumpMonth_mem {e : String × ℚ} (label : String) (v : ℚ) :
    ∀ l : List (String × ℚ), e ∈ bumpMonth label v l → e.1 = label ∨ e ∈ l := by
  intro l
  induction l with
  | nil =>
    intro h
    rw [bumpMonth] at h
    rcases List.mem_singleton.mp h with rfl
    left
    rfl
  | cons p t ih =>
    obtain ⟨k', x⟩ := p
    intro h
    by_cases h1 : k' = label
    · subst h1
      rw [bumpMonth, if_pos rfl] at h
      rcases List.mem_cons.mp h with rfl | hm
      · left
        rfl
      · right
        exact List.mem_cons_of_mem _ hm
    · rw [bumpMonth, if_neg h1] at h
      rcases List.mem_cons.mp h with rfl | hm
      · right
        simp
      · rcases ih hm with h2 | h2
        · left
          exact h2
        · right
          exact List.mem_cons_of_mem _ h2

theorem stepGenCol_monthly_val (p : Row) (st : AggSt) (g : String) (k : String) :
    assocVal (stepGenCol p st g).monthly k =
      assocVal st.monthly k + (if monthLabel? g = some k then posPart (cellOf p g) else 0) := by
  cases hm : monthLabel? g with
  | none => simp [stepGenCol, hm]
  | some m =>
    cases hc : cellOf p g with
    | none =>
      simp only [stepGenCol, hm, hc]
      by_cases hk : m = k <;> simp [hk, posPart]
    | some v =>
      by_cases hv : 0 < v
      · simp only [stepGenCol, hm, hc, hv, if_true, bumpMonth_assocVal]
        by_cases hk : m = k
        · subst hk
          simp [posPart, hv]
        · have hkb : ¬ k = m := fun h => hk h.symm
          simp [hk, hkb]
      · simp only [stepGenCol, hm, hc, hv, if_false]
        by_cases hk : m = k
        · subst hk
          simp [posPart, hv]
        · simp [hk]

theorem stepGenCol_totalGen (p : Row) (st : AggSt) (g : String) :
    (stepGenCol p st g).totalGen =
      st.totalGen + (match monthLabel? g with
        | some _ => posPart (cellOf p g)
        | none => 0) := by
  cases hm : monthLabel? g with
  | none => simp [stepGenCol, hm]
  | some m =>
    cases hc : cellOf p g with
    | none => simp [stepGenCol, hm, hc, posPart]
    | some v =>
      by_cases hv : 0 < v
      · simp [stepGenCol, hm, hc, hv, posPart, qadd_eq]
      · simp [stepGenCol, hm, hc, hv, posPart]

theorem stepGenCol_monthly_mem (p : Row) (st : AggSt) (g : String) {e : String × ℚ}
    (h : e ∈ (stepGenCol p st g).monthly) :
    monthLabel? g = some e.1 ∨ e ∈ st.monthly := by
  cases hm : monthLabel? g with
  | none =>
    simp only [stepGenCol, hm] at h
    exact Or.inr h
  | some m =>
    cases hc : cellOf p g with
    | none =>
      simp only [stepGenCol, hm, hc] at h
      exact Or.inr h
    | some v =>
      by_cases hv : 0 < v
      · simp only [stepGenCol, hm, hc, if_pos hv] at h
        rcases bumpMonth_mem m v st.monthly h with h1 | h1
        · exact Or.inl (by rw [h1])
        · exact Or.inr h1
      · simp only [stepGenCol, hm, hc, if_neg hv] at h
        exact Or.inr h

theorem genFold_monthly_val (p : Row) :
    ∀ (gcols : List String) (st : AggSt) (k : String),
      assocVal ((gcols.foldl (stepGenCol p) st).monthly) k =
        assocVal st.monthly k + monthContrib p k gcols := by
  intro gcols
  induction gcols with
  | nil =>
    intro st k
    simp [monthContrib]
  | cons g t ih =>
    intro st k
    rw [List.foldl_cons, ih, stepGenCol_monthly_val]
    simp only [monthContrib, List.map_cons, List.sum_cons]
    ring

theorem genFold_totalGen (p : Row) :
    ∀ (gcols : List String) (st : AggSt),
      (gcols.foldl (stepGenCol p) st).totalGen = st.totalGen + genContrib p gcols := by
  intro gcols
  induction gcols with
  | nil =>
    intro st
    simp [genContrib]
  | cons g t ih =>
    intro st
    rw [List.foldl_cons, ih, stepGenCol_totalGen]
    simp only [genContrib, List.map_cons, List.sum_cons]
    ring

theorem genFold_monthly_mem (p : Row) :
    ∀ (gcols : List String) (st : AggSt) {e : String × ℚ},
      e ∈ ((gcols.foldl (stepGenCol p) st).monthly) →
      (∃ g ∈ gcols, monthLabel? g = some e.1) ∨ e ∈ st.monthly := by
  intro gcols
  induction gcols with
  | nil =>
    intro st e h
    exact Or.inr h
  | cons g t ih =>
    intro st e h
    rw [List.foldl_cons] at h
    rcases ih _ h with h1 | h1
    · obtain ⟨g', hg', hl⟩ := h1
      exact Or.inl ⟨g', List.mem_cons_of_mem _ hg', hl⟩
    · rcases stepGenCol_monthly_mem p st g h1 with h2 | h2
      · exact Or.inl ⟨g, by simp, h2⟩
      · exact Or.inr h2

theorem stepRecord_monthly_val (cols : List String) (st : AggSt) (p : Row) (k : String) :
    assocVal (stepRecord cols st p).monthly k =
      assocVal st.monthly k + monthContrib p k (genColsOf cols) := by
  rw [stepRecord, genFold_monthly_val]

theorem stepRecord_totalGen (cols : List String) (st : AggSt) (p : Row) :
    (stepRecord cols st p).totalGen = st.totalGen + genContrib p (genColsOf cols) := by
  rw [stepRecord, genFold_totalGen]

theorem stepRecord_monthly_mem (cols : List String) (st : AggSt) (p : Row) {e : String × ℚ}
    (h : e ∈ (stepRecord cols st p).monthly) :
    (∃ g ∈ genColsOf cols, monthLabel? g = some e.1) ∨ e ∈ st.monthly := by
  rw [stepRecord] at h
  rcases genFold_monthly_mem p (genColsOf cols) _ h with h1 | h1
  · exact Or.inl h1
  · exact Or.inr h1

theorem foldRecords_monthly_val (cols : List String) :
    ∀ (ps : List Row) (st : AggSt) (k : String),
      assocVal ((ps.foldl (stepRecord cols) st).monthly) k =
        assocVal st.monthly k + (ps.map (fun p => monthContrib p k (genColsOf cols))).sum := by
  intro ps
  induction ps with
  | nil =>
    intro st k
    simp
  | cons p t ih =>
    intro st k
    rw [List.foldl_cons, ih, stepRecord_monthly_val, List.map_cons, List.sum_cons]
    ring

theorem foldRecords_totalGen (cols : List String) :
    ∀ (ps : List Row) (st : AggSt),
      (ps.foldl (stepRecord cols) st).totalGen =
        st.totalGen + (ps.map (fun p => genContrib p (genColsOf cols))).sum := by
  intro ps
  induction ps with
  | nil =>
    intro st
    simp
  | cons p t ih =>
    intro st
    rw [List.foldl_cons, ih, stepRecord_totalGen, List.map_cons, List.sum_cons]
    ring

theorem foldRecords_monthly_mem (cols : List String) :
    ∀ (ps : List Row) (st : AggSt) {e : String × ℚ},
      e ∈ ((ps.foldl (stepRecord cols) st).monthly) →
      (∃ g ∈ genColsOf cols, monthLabel? g = some e.1) ∨ e ∈ st.monthly := by
  intro ps
  induction ps with
  | nil =>
    intro st e h
    exact Or.inr h
  | cons p t ih =>
    intro st e h
    rw [List.foldl_cons] at h
    rcases ih _ h with h1 | h1
    · exact Or.inl h1
    · exact stepRecord_monthly_mem cols st p h1

theorem bumpMonth_keys_nodup (label : String) (v : ℚ) :
    ∀ l : List (String × ℚ),
      (l.map Prod.fst).Nodup → ((bumpMonth label v l).map Prod.fst).Nodup := by
  intro l
  induction l with
  | nil =>
    intro _
    simp [bumpMonth]
  | cons e t ih =>
    obtain ⟨k', x⟩ := e
    intro hn
    rw [List.map_cons, List.nodup_cons] at hn
    obtain ⟨hk', hnt⟩ := hn
    by_cases h1 : k' = label
    · subst h1
      have he : bumpMonth k' v ((k', x) :: t) = (k', qadd x v) :: t := by
        rw [bumpMonth, if_pos rfl]
      rw [he, List.map_cons, List.nodup_cons]
      exact ⟨hk', hnt⟩
    · simp only [bumpMonth, if_neg h1, List.map_cons, List.nodup_cons]
      refine ⟨?_, ih hnt⟩
      intro hmem
      rcases List.mem_map.mp hmem with ⟨e2, he2, hfst⟩
      rcases bumpMonth_mem label v t he2 with h2 | h2
      · exact h1 (by rw [← hfst, h2])
      · exact hk' (by rw [← hfst]; exact List.mem_map.mpr ⟨e2, h2, rfl⟩)

theorem stepGenCol_keys_nodup (p : Row) (st : AggSt) (g : String)
    (hn : ((st.monthly).map Prod.fst).Nodup) :
    (((stepGenCol p st g).monthly).map Prod.fst).Nodup := by
  cases hm : monthLabel? g with
  | none => simpa [stepGenCol, hm] using hn
  | some m =>
    cases hc : cellOf p g with
    | none => simpa [stepGenCol, hm, hc] using hn
    | some v =>
      by_cases hv : 0 < v
      · simp only [stepGenCol, hm, hc, if_pos hv]
        exact bumpMonth_keys_nodup m v st.monthly hn
      · simpa [stepGenCol, hm, hc, if_neg hv] using hn

theorem genFold_keys_nodup (p : Row) :
    ∀ (gcols : List String) (st : AggSt),
      ((st.monthly).map Prod.fst).Nodup →
      (((gcols.foldl (stepGenCol p) st).monthly).map Prod.fst).Nodup := by
  intro gcols
  induction gcols with
  | nil => intro st hn; exact hn
  | cons g t ih =>
    intro st hn
    rw [List.foldl_cons]
    exact ih _ (stepGenCol_keys_nodup p st g hn)

theorem foldRecords_keys_nodup (cols : List String) :
    ∀ (ps : List Row) (st : AggSt),
      ((st.monthly).map Prod.fst).Nodup →
      (((ps.foldl (stepRecord cols) st).monthly).map Prod.fst).Nodup := by
  intro ps
  induction ps with
  | nil => intro st hn; exact hn
  | cons p t ih =>
    intro st hn
    rw [List.foldl_cons]
    apply ih
    rw [stepRecord]
    exact genFold_keys_nodup p (genColsOf cols) _ hn

theorem assocVal_of_mem :
    ∀ {l : List (String × ℚ)}, (l.map Prod.fst).Nodup →
      ∀ {k : String} {v : ℚ}, (k, v) ∈ l → assocVal l k = v := by
  intro l
  induction l with
  | nil =>
    intro _ k v hm
    cases hm
  | cons e t ih =>
    obtain ⟨k', x⟩ := e
    intro hn k v hm
    rw [List.map_cons, List.nodup_cons] at hn
    rcases List.mem_cons.mp hm with he | hm2
    · rw [Prod.mk.injEq] at he
      obtain ⟨rfl, rfl⟩ := he
      simp [assocVal]
    · have hne : ¬ k' = k := by
        intro hcontr
        subst hcontr
        exact hn.1 (List.mem_map.mpr ⟨(k', v), hm2, rfl⟩)
      simp [assocVal, hne, ih hn.2 hm2]

theorem lineLe_total (x y : LinePoint) : lineLe x y = true ∨ lineLe y x = true := by
  rcases le_total (fiscalIdx x.name) (fiscalIdx y.name) with h | h
  · left
    simpa [lineLe] using h
  · right
    simpa [lineLe] using h

theorem lineLe_trans {x y z : LinePoint}
    (hxy : lineLe x y = true) (hyz : lineLe y z = true) : lineLe x z = true := by
  simp only [lineLe, decide_eq_true_eq] at hxy hyz ⊢
  exact le_trans hxy hyz

/-- C8: every monthly-series entry aggregates exactly the pattern-matching
generation columns of its own `Mon-YY` label — its value is the `toFixed(2)`
rounding of the label's direct double sum (over records and matching columns
of strictly positive numeric values) divided by 1,000,000; every entry's label
comes from a generation column matching the `^[A-Za-z]+-\d{2}` pattern;
entries are sorted by the fixed fiscal index (Apr → Mar on the first three
label characters); and the generation total is the direct double sum over
pattern-matching columns with positive values only — so a column failing the
pattern, or a non-positive value, contributes to neither. -/
theorem C8_monthly_series_fiscal (projects : List Row) :
    (∀ e ∈ (aggregate projects).lineData,
        e.val = some (fixed2Val (qdiv (monthRaw projects e.name) 1000000)) ∧
        ∃ g ∈ genColsOf ((projects.headD []).map Prod.fst), monthLabel? g = some e.name) ∧
    ((aggregate projects).lineData).Pairwise
      (fun a b => fiscalIdx a.name ≤ fiscalIdx b.name) ∧
    (aggregate projects).totalGen = genRawTotal projects := by
  cases hp : projects.isEmpty with
  | true =>
    have h3 : projects = [] := List.isEmpty_iff.mp hp
    subst h3
    refine ⟨?_, ?_, ?_⟩
    · intro e he
      simp [aggregate] at he
    · simp [aggregate]
    · simp [aggregate, genRawTotal]
  | false =>
    have hld : (aggregate projects).lineData = stableSort lineLe
        (((projects.foldl (stepRecord ((projects.headD []).map Prod.fst))
            { totalCapacity := some 0, totalGen := 0, typeGroups := [],
              monthly := [] }).monthly).map (fun e => ⟨e.1, muVal e.2⟩)) := by
      rw [aggregate]
      simp [hp]
    have htg : (aggregate projects).totalGen =
        (projects.foldl (stepRecord ((projects.headD []).map Prod.fst))
            { totalCapacity := some 0, totalGen := 0, typeGroups := [],
              monthly := [] }).totalGen := by
      rw [aggregate]
      simp [hp]
    refine ⟨?_, ?_, ?_⟩
    · intro e he
      rw [hld] at he
      have he2 := stableSort_mem.mp he
      rcases List.mem_map.mp he2 with ⟨m, hm, rfl⟩
      have hnod := foldRecords_keys_nodup ((projects.headD []).map Prod.fst) projects
        { totalCapacity := some 0, totalGen := 0, typeGroups := [], monthly := [] } (by simp)
      have hv : assocVal (projects.foldl (stepRecord ((projects.headD []).map Prod.fst))
          { totalCapacity := some 0, totalGen := 0, typeGroups := [],
            monthly := [] }).monthly m.1 = m.2 :=
        assocVal_of_mem hnod (by simpa using hm)
      have hval := foldRecords_monthly_val ((projects.headD []).map Prod.fst) projects
        { totalCapacity := some 0, totalGen := 0, typeGroups := [], monthly := [] } m.1
      rw [hv] at hval
      have hm2 : m.2 = monthRaw projects m.1 := by
        rw [monthRaw]
        simpa [assocVal] using hval
      constructor
      · show muVal m.2 = some (fixed2Val (qdiv (monthRaw projects m.1) 1000000))
        rw [hm2, muVal, jsNumber_fixed2]
      · have horig := foldRecords_monthly_mem ((projects.headD []).map Prod.fst) projects
          { totalCapacity := some 0, totalGen := 0, typeGroups := [], monthly := [] } hm
        rcases horig with h1 | h1
        · exact h1
        · cases h1
    · rw [hld]
      have hp2 := stableSort_pairwise lineLe
        (((projects.foldl (stepRecord ((projects.headD []).map Prod.fst))
            { totalCapacity := some 0, totalGen := 0, typeGroups := [],
              monthly := [] }).monthly).map (fun e => ⟨e.1, muVal e.2⟩))
        (fun x _ y _ => lineLe_total x y)
        (fun x _ y _ z _ hxy hyz => lineLe_trans hxy hyz)
      exact hp2.imp (fun h => by simpa [lineLe] using h)
    · rw [htg]
      have h0 := foldRecords_totalGen ((projects.headD []).map Prod.fst) projects
        { totalCapacity := some 0, totalGen := 0, typeGroups := [], monthly := [] }
      simpa [genRawTotal] using h0

/-- Witness for C8 at a one-record, one-generation-column list: the Apr-24
entry equals 2.5 MU, which is the rounded direct sum. -/
theorem C8_monthly_series_fiscal_witness :
    (some (mkRat 5 2) : JNum) =
      some (fixed2Val (qdiv (monthRaw [demoGenRecord] "Apr-24") 1000000)) ∧
    ∃ g ∈ genColsOf (([demoGenRecord].headD []).map Prod.fst),
      monthLabel? g = some "Apr-24" :=
  (C8_monthly_series_fiscal [demoGenRecord]).1 ⟨"Apr-24", some (mkRat 5 2)⟩ (by decide)

theorem findKey_some_ne_empty {headers : List String} {sub k : String}
    (h : findKey headers sub = some k) (hs : sub ≠ "") : k ≠ "" := by
  intro hk
  subst hk
  have h2 := List.find?_some h
  have h3 : sub.data.isEmpty = true := h2
  rw [List.isEmpty_iff] at h3
  apply hs
  cases sub with
  | mk d =>
    simp only at h3
    rw [h3]

theorem cellNum_rowSet_ne (r : Row) {k key : String} (v : Val) (h : key ≠ k) :
    cellNum (rowSet r k v) (some key) = cellNum r (some key) := by
  by_cases hk : key = ""
  · simp [cellNum, hk]
  · simp [cellNum, hk, rowGet_rowSet_ne r v h]

theorem getD_set_self {l : List Row} {i : ℕ} (h : i < l.length) (a : Row) :
    (l.set i a).getD i [] = a := by
  rw [List.getD]
  simp [List.getElem?_set, h]

/-- C3: when the ledger headers resolve all billing columns (meter factor,
rate, export/import current, previous, difference, kWh, net and bill — with
the written derived cells distinct), editing the resolved "current export"
cell recomputes, synchronously in the same state update, the row's
export-difference and export-kWh cells (two-decimal strings of the formula on
the comma-stripped parsed values), the net cell (difference of the two written
kWh values as reparsed), and the bill cell (`Math.round(net * rate)` as an
integer string), and adds the row index to the modified set; saving removes
the index from the modified set only when the persistence call succeeds and
leaves it in the set when the call fails. -/
theorem C3_row_edit_recompute_and_save
    (st : EditState) (headers : List String) (rowIndex : ℕ) (value : String)
    (kMF kRate kExpCurr kExpPrev kExpDiff kExpKWH kImpCurr kImpPrev kImpDiff kImpKWH kNet kBill : String)
    (hidx : rowIndex < st.history.length)
    (hMF : findKey headers "MF" = some kMF)
    (hRate : findKey headers "RATE" = some kRate)
    (hEC : findKey headers "EXPORT - CURRENT" = some kExpCurr)
    (hEP : findKey headers "EXPORT - PREVIOUS" = some kExpPrev)
    (hED : findKey headers "EXPORT - DIFFERENCE" = some kExpDiff)
    (hEK : findKey headers "EXPORT - KWH" = some kExpKWH)
    (hIC : findKey headers "IMPORT - CURRENT" = some kImpCurr)
    (hIP : findKey headers "IMPORT - PREVIOUS" = some kImpPrev)
    (hID : findKey headers "IMPORT - DIFFERENCE" = some kImpDiff)
    (hIK : findKey headers "IMPORT - KWH" = some kImpKWH)
    (hNet : findKey headers "NET" = some kNet)
    (hBill : findKey headers "BILL AMOUNT" = some kBill)
    (hdist : List.Pairwise (· ≠ ·)
      [kExpDiff, kExpKWH, kImpDiff, kImpKWH, kNet, kBill, kImpCurr, kImpPrev]) :
    let row1 := rowSet (st.history.getD rowIndex []) kExpCurr (.str value)
    let mf := cellNum row1 (some kMF)
    let rate := cellNum row1 (some kRate)
    let diffE := qsub (cellNum row1 (some kExpCurr)) (cellNum row1 (some kExpPrev))
    let diffI := qsub (cellNum row1 (some kImpCurr)) (cellNum row1 (some kImpPrev))
    let net := qsub (fixed2Val (qmul diffE mf)) (fixed2Val (qmul diffI mf))
    let upd := handleCellChange st headers rowIndex kExpCurr value
    let row' := upd.history.getD rowIndex []
    upd.modified = insert rowIndex st.modified ∧
    rowGet row' kExpDiff = .str (fixed2 diffE) ∧
    rowGet row' kExpKWH = .str (fixed2 (qmul diffE mf)) ∧
    rowGet row' kNet = .str (fixed2 net) ∧
    rowGet row' kBill = .str (intStr (jsRound (qmul net rate))) ∧
    rowIndex ∉ saveRowModified upd.modified rowIndex true ∧
    rowIndex ∈ saveRowModified upd.modified rowIndex false := by
  simp only [List.pairwise_cons, List.mem_cons, List.mem_singleton, List.not_mem_nil,
    or_false, forall_eq_or_imp, forall_eq, List.Pairwise.nil, and_true] at hdist
  obtain ⟨⟨hd1, hd2, hd3, hd4, hd5, hd6, hd7⟩, ⟨he1, he2, he3, he4, he5, he6⟩,
    ⟨hf1, hf2, hf3, hf4, hf5⟩, ⟨hg1, hg2, hg3, hg4⟩, ⟨hh1, hh2, hh3⟩, ⟨hi1, hi2⟩, hj1⟩ := hdist
  have hMFne : kMF ≠ "" := findKey_some_ne_empty hMF (by decide)
  have hRatene : kRate ≠ "" := findKey_some_ne_empty hRate (by decide)
  have hECne : kExpCurr ≠ "" := findKey_some_ne_empty hEC (by decide)
  have hEPne : kExpPrev ≠ "" := findKey_some_ne_empty hEP (by decide)
  have hEDne : kExpDiff ≠ "" := findKey_some_ne_empty hED (by decide)
  have hEKne : kExpKWH ≠ "" := findKey_some_ne_empty hEK (by decide)
  have hICne : kImpCurr ≠ "" := findKey_some_ne_empty hIC (by decide)
  have hIPne : kImpPrev ≠ "" := findKey_some_ne_empty hIP (by decide)
  have hIKne : kImpKWH ≠ "" := findKey_some_ne_empty hIK (by decide)
  have hNetne : kNet ≠ "" := findKey_some_ne_empty hNet (by decide)
  have hBillne : kBill ≠ "" := findKey_some_ne_empty hBill (by decide)
  have hupd : handleCellChange st headers rowIndex kExpCurr value =
      { history := st.history.set rowIndex
          (let row1 := rowSet (st.history.getD rowIndex []) kExpCurr (.str value)
           let mf := cellNum row1 (some kMF)
           let rate := cellNum row1 (some kRate)
           let diffE := qsub (cellNum row1 (some kExpCurr)) (cellNum row1 (some kExpPrev))
           let rowA := rowSet (rowSet row1 kExpDiff (.str (fixed2 diffE))) kExpKWH
             (.str (fixed2 (qmul diffE mf)))
           let diffI := qsub (cellNum rowA (some kImpCurr)) (cellNum rowA (some kImpPrev))
           let rowB := rowSet (rowSet rowA kImpDiff (.str (fixed2 diffI))) kImpKWH
             (.str (fixed2 (qmul diffI mf)))
           let net := jsub (parseFloat (stripCommas (valStr (rowGet rowB kExpKWH))))
             (parseFloat (stripCommas (valStr (rowGet rowB kImpKWH))))
           rowSet (rowSet rowB kNet (.str (jfixed2 net))) kBill
             (.str (jroundStr (jmul net (some rate))))),
        modified := insert rowIndex st.modified } := by
    simp only [handleCellChange, hMF, hRate, hEC, hEP, hED, hEK, hIC, hIP, hID, hIK, hNet, hBill,
      keyTruthy, rowSetOpt, rowGetOpt, beq_self_eq_true, Bool.or_true, Bool.true_or, Bool.and_true,
      Bool.true_and, beq_eq_false_iff_ne, ne_eq, Bool.not_eq_true']
    simp only [show (kMF == "") = false from beq_eq_false_iff_ne.mpr hMFne,
      show (kRate == "") = false from beq_eq_false_iff_ne.mpr hRatene,
      show (kExpCurr == "") = false from beq_eq_false_iff_ne.mpr hECne,
      show (kExpPrev == "") = false from beq_eq_false_iff_ne.mpr hEPne,
      show (kExpDiff == "") = false from beq_eq_false_iff_ne.mpr hEDne,
      show (kExpKWH == "") = false from beq_eq_false_iff_ne.mpr hEKne,
      show (kImpCurr == "") = false from beq_eq_false_iff_ne.mpr hICne,
      show (kImpPrev == "") = false from beq_eq_false_iff_ne.mpr hIPne,
      show (kImpKWH == "") = false from beq_eq_false_iff_ne.mpr hIKne,
      show (kNet == "") = false from beq_eq_false_iff_ne.mpr hNetne,
      show (kBill == "") = false from beq_eq_false_iff_ne.mpr hBillne,
      Bool.not_false, Bool.true_and, Bool.and_true, if_true]
  rw [hupd]
  dsimp only
  rw [getD_set_self hidx]
  simp only [rowGet_rowSet_self, rowGet_rowSet_ne, cellNum_rowSet_ne, valStr,
    stripCommas_fixed2, parseFloat_fixed2, jsub, jfixed2, jmul, jroundStr, saveRowModified,
    hd1, hd2, hd3, hd4, hd5, hd6, hd7, he1, he2, he3, he4, he5, he6,
    hf1, hf2, hf3, hf4, hf5, hg1, hg2, hg3, hg4, hh1, hh2, hh3, hi1, hi2, hj1,
    Ne.symm hd6, Ne.symm hd7, Ne.symm he5, Ne.symm he6,
    ne_eq, not_false_eq_true, if_true, if_false,
    Finset.mem_insert_self, Finset.not_mem_erase]
  refine ⟨trivial, trivial, trivial, trivial, trivial, trivial, ?_⟩
  simp

/-- Witness for C3 at the demo ledger row, editing current export to "160". -/
theorem C3_row_edit_recompute_and_save_witness :
    rowGet ((handleCellChange ⟨[demoLedgerRow], ∅⟩ demoHeaders 0 "EXPORT - CURRENT" "160").history.getD 0 [])
      "BILL AMOUNT" = .str "300000" ∧
    (handleCellChange ⟨[demoLedgerRow], ∅⟩ demoHeaders 0 "EXPORT - CURRENT" "160").modified =
      insert 0 (∅ : Finset ℕ) ∧
    0 ∉ saveRowModified
      (handleCellChange ⟨[demoLedgerRow], ∅⟩ demoHeaders 0 "EXPORT - CURRENT" "160").modified 0 true ∧
    0 ∈ saveRowModified
      (handleCellChange ⟨[demoLedgerRow], ∅⟩ demoHeaders 0 "EXPORT - CURRENT" "160").modified 0 false := by
  have h := C3_row_edit_recompute_and_save ⟨[demoLedgerRow], ∅⟩ demoHeaders 0 "160"
    "MF" "RATE" "EXPORT - CURRENT" "EXPORT - PREVIOUS" "EXPORT - DIFFERENCE" "EXPORT - KWH"
    "IMPORT - CURRENT" "IMPORT - PREVIOUS" "IMPORT - DIFFERENCE" "IMPORT - KWH" "NET UNITS"
    "BILL AMOUNT" (by decide) (by decide) (by decide) (by decide) (by decide) (by decide)
    (by decide) (by decide) (by decide) (by decide) (by decide) (by decide) (by decide) (by decide)
  exact ⟨by decide, h.1, h.2.2.2.2.2.1, h.2.2.2.2.2.2⟩

end OfficeTool
